/-
Verification of the AC3ross crossword generator's constraint-satisfaction core
(`src/grid.py` and `src/solver.py`) via a shallow embedding in Lean 4.

Conventions of the embedding:
* Python strings (words) are `List Char`; `word[i]` is `charAt` (total, with an
  arbitrary default character off the end — every in-scope access is in range).
* Python dictionaries are association lists with insertion-order semantics
  (`ainsert` overwrites in place, appends fresh keys at the end); lookups are
  first-match.  The per-slot domain dictionary is modelled as its total lookup
  function `Slot → List Char-words` (empty off-key), since every access in the
  translated code stays within the slot list under the well-formedness
  hypotheses stated with the theorems.
* Python `set[str]` values are duplicate-free lists; set comprehension is
  `List.filter`, set difference of the removed elements likewise.
* Mutation is explicit state passing: solver methods take and return the
  `Solver` record; `print` calls accumulate into a returned log.
* The unbounded recursion of `backtrack` is modelled with a fuel parameter;
  `none` marks exhausted fuel (the Python call still running), and corresponds
  to no Python return value at all.
-/
import Mathlib

namespace AC3ross

/-- A grid coordinate `(row, col)`. -/
abbrev Coord := Nat × Nat

/-- A word is a fixed-length sequence of characters (Python `str`). -/
abbrev Word := List Char

/-- Python `word[i]`, made total; all in-scope accesses are in range. -/
def charAt (w : Word) (i : Nat) : Char := w.getD i '?'

/-- Slot direction (`'across'` / `'down'` in the source). -/
inductive Dir where
  | across
  | down
deriving DecidableEq, Repr

/-- `grid.Slot`: a word position.  Python equality compares `direction` and
`cells`; for slots as produced by `extract_slots` (where `row`/`col` is the
first cell and `length = len(cells)`) that coincides with the structural
equality used here. -/
structure Slot where
  row : Nat
  col : Nat
  direction : Dir
  length : Nat
  cells : List Coord
deriving DecidableEq, Repr

/-- `grid.CrosswordGrid`: cell values are `none` (empty) or `some c`
(a letter, or `'#'` for a black square). -/
structure Grid where
  width : Nat
  height : Nat
  cells : List (List (Option Char))
deriving Repr

/-- `CrosswordGrid.get_cell` (total; out-of-range reads yield `none`,
which the source raises on — never exercised by the scanning code). -/
def getCell (g : Grid) (r c : Nat) : Option Char :=
  ((g.cells.get? r).bind fun row => row.get? c).join

/-- `CrosswordGrid.is_black`. -/
def isBlack (g : Grid) (r c : Nat) : Bool := getCell g r c == some '#'

/-- The grid built by `CrosswordGrid.__init__`: all cells `None`. -/
def emptyGrid (w h : Nat) : Grid := ⟨w, h, List.replicate h (List.replicate w none)⟩

/-- The inner `while col < width and not black: cells.append(...)` loop of
`extract_slots`, with the loop's iteration bound `g.width - c` made explicit
as structural fuel (the bound check `c < g.width` stays in the body, as in
the source; `runAcross` below supplies sufficient fuel). -/
def runAcrossGo (g : Grid) (r : Nat) : Nat → Nat → List Coord
  | 0, _ => []
  | fuel + 1, c =>
      if c < g.width then
        if isBlack g r c then [] else (r, c) :: runAcrossGo g r fuel (c + 1)
      else []

/-- The contiguous run of non-black cells starting at `(r, c)`. -/
def runAcross (g : Grid) (r c : Nat) : List Coord := runAcrossGo g r (g.width - c) c

theorem runAcrossGo_irrel (g : Grid) (r : Nat) :
    ∀ f1 f2 c, g.width - c ≤ f1 → g.width - c ≤ f2 →
      runAcrossGo g r f1 c = runAcrossGo g r f2 c := by
  intro f1
  induction f1 with
  | zero =>
      intro f2 c h1 h2
      cases f2 with
      | zero => rfl
      | succ f2 =>
          have hw : ¬ c < g.width := by omega
          simp [runAcrossGo, hw]
  | succ f1 ih =>
      intro f2 c h1 h2
      cases f2 with
      | zero =>
          have hw : ¬ c < g.width := by omega
          simp [runAcrossGo, hw]
      | succ f2 =>
          by_cases hw : c < g.width
          · by_cases hb : isBlack g r c
            · simp [runAcrossGo, hw, hb]
            · simp only [runAcrossGo, if_pos hw, if_neg hb]
              rw [ih f2 (c + 1) (by omega) (by omega)]
          · simp [runAcrossGo, hw]

/-- `runAcross` satisfies the recursion of the source's while loop. -/
theorem runAcross_eq (g : Grid) (r c : Nat) :
    runAcross g r c =
      if c < g.width then
        if isBlack g r c then [] else (r, c) :: runAcross g r (c + 1)
      else [] := by
  unfold runAcross
  by_cases hw : c < g.width
  · have h1 : g.width - c = (g.width - (c + 1)) + 1 := by omega
    rw [h1]
    by_cases hb : isBlack g r c <;> simp [runAcrossGo, hw, hb]
  · have h1 : g.width - c = 0 := by omega
    rw [h1]
    simp [runAcrossGo, hw]

theorem runAcross_length_pos (g : Grid) (r c : Nat) (h1 : c < g.width)
    (h2 : isBlack g r c = false) : 0 < (runAcross g r c).length := by
  rw [runAcross_eq]
  simp [h1, h2]

/-- The outer `while col < self.width` loop of `extract_slots` for one row
(skip black squares, collect a run, keep it as a slot when its length is
≥ 3), again with the iteration bound as structural fuel. -/
def acrossFromGo (g : Grid) (r : Nat) : Nat → Nat → List Slot
  | 0, _ => []
  | fuel + 1, c =>
      if c < g.width then
        if isBlack g r c then acrossFromGo g r fuel (c + 1)
        else
          (if 3 ≤ (runAcross g r c).length then
            [⟨r, c, .across, (runAcross g r c).length, runAcross g r c⟩] else []) ++
            acrossFromGo g r fuel (c + (runAcross g r c).length)
      else []

/-- The across slots found from column `c` of row `r` on. -/
def acrossFrom (g : Grid) (r c : Nat) : List Slot := acrossFromGo g r (g.width - c) c

theorem acrossFromGo_irrel (g : Grid) (r : Nat) :
    ∀ f1 f2 c, g.width - c ≤ f1 → g.width - c ≤ f2 →
      acrossFromGo g r f1 c = acrossFromGo g r f2 c := by
  intro f1
  induction f1 with
  | zero =>
      intro f2 c h1 h2
      cases f2 with
      | zero => rfl
      | succ f2 =>
          have hw : ¬ c < g.width := by omega
          simp [acrossFromGo, hw]
  | succ f1 ih =>
      intro f2 c h1 h2
      cases f2 with
      | zero =>
          have hw : ¬ c < g.width := by omega
          simp [acrossFromGo, hw]
      | succ f2 =>
          by_cases hw : c < g.width
          · by_cases hb : isBlack g r c
            · simp only [acrossFromGo, if_pos hw, if_pos hb]
              exact ih f2 (c + 1) (by omega) (by omega)
            · simp only [acrossFromGo, if_pos hw, if_neg hb]
              have hpos := runAcross_length_pos g r c hw (by simpa using hb)
              rw [ih f2 (c + (runAcross g r c).length) (by omega) (by omega)]
          · simp [acrossFromGo, hw]

/-- `acrossFrom` satisfies the recursion of the source's while loop. -/
theorem acrossFrom_eq (g : Grid) (r c : Nat) :
    acrossFrom g r c =
      if c < g.width then
        if isBlack g r c then acrossFrom g r (c + 1)
        else
          (if 3 ≤ (runAcross g r c).length then
            [⟨r, c, .across, (runAcross g r c).length, runAcross g r c⟩] else []) ++
            acrossFrom g r (c + (runAcross g r c).length)
      else [] := by
  unfold acrossFrom
  by_cases hw : c < g.width
  · have h1 : g.width - c = (g.width - (c + 1)) + 1 := by omega
    rw [h1]
    by_cases hb : isBlack g r c
    · simp only [acrossFromGo, if_pos hw, if_pos hb]
    · simp only [acrossFromGo, if_pos hw, if_neg hb]
      have hpos := runAcross_length_pos g r c hw (by simpa using hb)
      rw [acrossFromGo_irrel g r (g.width - (c + 1)) (g.width - (c + (runAcross g r c).length))
        (c + (runAcross g r c).length) (by omega) (by omega)]
  · have h1 : g.width - c = 0 := by omega
    rw [h1]
    simp [acrossFromGo, hw]

/-- Down-direction analogue of `runAcrossGo` (column `c`, starting row `r`). -/
def runDownGo (g : Grid) (c : Nat) : Nat → Nat → List Coord
  | 0, _ => []
  | fuel + 1, r =>
      if r < g.height then
        if isBlack g r c then [] else (r, c) :: runDownGo g c fuel (r + 1)
      else []

/-- The contiguous run of non-black cells down column `c` from row `r`. -/
def runDown (g : Grid) (c r : Nat) : List Coord := runDownGo g c (g.height - r) r

theorem runDownGo_irrel (g : Grid) (c : Nat) :
    ∀ f1 f2 r, g.height - r ≤ f1 → g.height - r ≤ f2 →
      runDownGo g c f1 r = runDownGo g c f2 r := by
  intro f1
  induction f1 with
  | zero =>
      intro f2 r h1 h2
      cases f2 with
      | zero => rfl
      | succ f2 =>
          have hw : ¬ r < g.height := by omega
          simp [runDownGo, hw]
  | succ f1 ih =>
      intro f2 r h1 h2
      cases f2 with
      | zero =>
          have hw : ¬ r < g.height := by omega
          simp [runDownGo, hw]
      | succ f2 =>
          by_cases hw : r < g.height
          · by_cases hb : isBlack g r c
            · simp [runDownGo, hw, hb]
            · simp only [runDownGo, if_pos hw, if_neg hb]
              rw [ih f2 (r + 1) (by omega) (by omega)]
          · simp [runDownGo, hw]

theorem runDown_eq (g : Grid) (c r : Nat) :
    runDown g c r =
      if r < g.height then
        if isBlack g r c then [] else (r, c) :: runDown g c (r + 1)
      else [] := by
  unfold runDown
  by_cases hw : r < g.height
  · have h1 : g.height - r = (g.height - (r + 1)) + 1 := by omega
    rw [h1]
    by_cases hb : isBlack g r c <;> simp [runDownGo, hw, hb]
  · have h1 : g.height - r = 0 := by omega
    rw [h1]
    simp [runDownGo, hw]

theorem runDown_length_pos (g : Grid) (c r : Nat) (h1 : r < g.height)
    (h2 : isBlack g r c = false) : 0 < (runDown g c r).length := by
  rw [runDown_eq]
  simp [h1, h2]

/-- The down-slot scanning loop of `extract_slots` for one column. -/
def downFromGo (g : Grid) (c : Nat) : Nat → Nat → List Slot
  | 0, _ => []
  | fuel + 1, r =>
      if r < g.height then
        if isBlack g r c then downFromGo g c fuel (r + 1)
        else
          (if 3 ≤ (runDown g c r).length then
            [⟨r, c, .down, (runDown g c r).length, runDown g c r⟩] else []) ++
            downFromGo g c fuel (r + (runDown g c r).length)
      else []

/-- The down slots found from row `r` of column `c` on. -/
def downFrom (g : Grid) (c r : Nat) : List Slot := downFromGo g c (g.height - r) r

theorem downFromGo_irrel (g : Grid) (c : Nat) :
    ∀ f1 f2 r, g.height - r ≤ f1 → g.height - r ≤ f2 →
      downFromGo g c f1 r = downFromGo g c f2 r := by
  intro f1
  induction f1 with
  | zero =>
      intro f2 r h1 h2
      cases f2 with
      | zero => rfl
      | succ f2 =>
          have hw : ¬ r < g.height := by omega
          simp [downFromGo, hw]
  | succ f1 ih =>
      intro f2 r h1 h2
      cases f2 with
      | zero =>
          have hw : ¬ r < g.height := by omega
          simp [downFromGo, hw]
      | succ f2 =>
          by_cases hw : r < g.height
          · by_cases hb : isBlack g r c
            · simp only [downFromGo, if_pos hw, if_pos hb]
              exact ih f2 (r + 1) (by omega) (by omega)
            · simp only [downFromGo, if_pos hw, if_neg hb]
              have hpos := runDown_length_pos g c r hw (by simpa using hb)
              rw [ih f2 (r + (runDown g c r).length) (by omega) (by omega)]
          · simp [downFromGo, hw]

theorem downFrom_eq (g : Grid) (c r : Nat) :
    downFrom g c r =
      if r < g.height then
        if isBlack g r c then downFrom g c (r + 1)
        else
          (if 3 ≤ (runDown g c r).length then
            [⟨r, c, .down, (runDown g c r).length, runDown g c r⟩] else []) ++
            downFrom g c (r + (runDown g c r).length)
      else [] := by
  unfold downFrom
  by_cases hw : r < g.height
  · have h1 : g.height - r = (g.height - (r + 1)) + 1 := by omega
    rw [h1]
    by_cases hb : isBlack g r c
    · simp only [downFromGo, if_pos hw, if_pos hb]
    · simp only [downFromGo, if_pos hw, if_neg hb]
      have hpos := runDown_length_pos g c r hw (by simpa using hb)
      rw [downFromGo_irrel g c (g.height - (r + 1)) (g.height - (r + (runDown g c r).length))
        (r + (runDown g c r).length) (by omega) (by omega)]
  · have h1 : g.height - r = 0 := by omega
    rw [h1]
    simp [downFromGo, hw]

/-- `CrosswordGrid.extract_slots`: all across slots (rows in order), then all
down slots (columns in order). -/
def extract_slots (g : Grid) : List Slot :=
  ((List.range g.height).flatMap fun r => acrossFrom g r 0) ++
    ((List.range g.width).flatMap fun c => downFrom g c 0)

/-- The overlap dictionary: `(slot1, slot2) -> (index1, index2)`. -/
abbrev OvMap := List ((Slot × Slot) × (Nat × Nat))

/-- Python dict lookup `overlaps[(a, b)]` / membership test. -/
def lookupOv (ov : OvMap) (a b : Slot) : Option (Nat × Nat) :=
  (ov.find? fun e => decide (e.1 = (a, b))).map (·.2)

/-- Python dict insertion: overwrite an existing key in place, else append. -/
def ainsert (ov : OvMap) (k : Slot × Slot) (v : Nat × Nat) : OvMap :=
  if ov.any fun e => decide (e.1 = k) then
    ov.map fun e => if e.1 = k then (k, v) else e
  else ov ++ [(k, v)]

/-- The inner `for idx2 ... if cell1 == cell2 ... break` search of
`calculate_overlaps`: index of the first cell of `cs` equal to `c`. -/
def firstIdx (cs : List Coord) (c : Coord) : Option Nat :=
  cs.findIdx? fun x => decide (x = c)

/-- All `(idx1, idx2)` pairs recorded by the double loop of
`calculate_overlaps` for one slot pair: for each `idx1` whose cell occurs in
`s2.cells`, the first matching `idx2`. -/
def matchPairs (s1 s2 : Slot) : List (Nat × Nat) :=
  s1.cells.enum.filterMap fun p => (firstIdx s2.cells p.2).map fun j => (p.1, j)

/-- Record one slot pair's overlap entries (both orientations, as the source
does on each match). -/
def insOverlap (acc : OvMap) (s1 s2 : Slot) : OvMap :=
  (matchPairs s1 s2).foldl
    (fun m p => ainsert (ainsert m (s1, s2) (p.1, p.2)) (s2, s1) (p.2, p.1)) acc

/-- Inner loop `for slot2 in slots[i+1:]` of `calculate_overlaps`. -/
def overlapsPass (s1 : Slot) : List Slot → OvMap → OvMap
  | [], acc => acc
  | s2 :: rest, acc =>
      overlapsPass s1 rest
        (if s1.direction = s2.direction then acc else insOverlap acc s1 s2)

/-- Outer loop of `calculate_overlaps`. -/
def calcOverlapsGo : List Slot → OvMap → OvMap
  | [], acc => acc
  | s1 :: rest, acc => calcOverlapsGo rest (overlapsPass s1 rest acc)

/-- `CrosswordGrid.calculate_overlaps`. -/
def calculate_overlaps (slots : List Slot) : OvMap := calcOverlapsGo slots []

/-! ### The solver (`src/solver.py`) -/

/-- The domain dictionary `self.domains`, as its total lookup function. -/
abbrev Domains := Slot → List Word

/-- Pointwise dictionary write `self.domains[s] = d`. -/
def updateD (ds : Domains) (s : Slot) (d : List Word) : Domains :=
  fun t => if t = s then d else ds t

/-- `utils.words_by_length`, as a lookup function: the set of words of length
`n` (a missing key reads as the empty set). -/
def wordsByLength (words : List Word) : Nat → List Word :=
  fun n => (words.filter fun w => decide (w.length = n)).dedup

/-- A partial assignment dictionary `{slot: word}` (insertion order kept). -/
abbrev Assignment := List (Slot × Word)

/-- Python `s in assignment` (dict key membership). -/
def hasKey (a : Assignment) (s : Slot) : Bool := a.any fun p => decide (p.1 = s)

/-- Python `assignment[s]` (total; callers check membership first). -/
def aGet (a : Assignment) (s : Slot) : Word :=
  ((a.find? fun p => decide (p.1 = s)).map (·.2)).getD []

/-- Python `assignment[s] = w`. -/
def aSet (a : Assignment) (s : Slot) (w : Word) : Assignment :=
  if hasKey a s then a.map fun p => if p.1 = s then (s, w) else p else a ++ [(s, w)]

/-- Python `del assignment[s]`. -/
def aDel (a : Assignment) (s : Slot) : Assignment :=
  a.filter fun p => decide (p.1 ≠ s)

/-- `CrosswordSolver` state.  `theme` is the optional `ThemeManager`, reduced
to its `get_word_score` lookup (scores are exact rationals here; the claims
exercised use values on which Python float arithmetic is exact). -/
structure Solver where
  slots : List Slot
  overlaps : OvMap
  theme : Option (Word → ℚ)
  themeInfluence : ℚ
  wordsByLen : Nat → List Word
  domains : Domains
  themeAssignment : List (Slot × Word)
  backtrackCount : Nat
  ac3Count : Nat

/-- `CrosswordSolver._initialize_domains` (the returned dictionary). -/
def initializeDomains (slots : List Slot) (wbl : Nat → List Word) : Domains :=
  fun s => if s ∈ slots then wbl s.length else []

/-- `Slot.__repr__`. -/
def slotRepr (s : Slot) : String :=
  let d := match s.direction with | .across => "A" | .down => "D"
  let r := s.row
  let c := s.col
  let n := s.length
  s!"Slot({d}{r},{c},len={n})"

/-- The warning printed by `_initialize_domains` for an empty domain. -/
def warnMsg (s : Slot) : String :=
  let t := slotRepr s
  let n := s.length
  s!"Warning: No words found for slot {t} (length {n})"

/-- The warnings printed during `_initialize_domains`, in loop order. -/
def initWarnings (slots : List Slot) (wbl : Nat → List Word) : List String :=
  slots.filterMap fun s => if wbl s.length = [] then some (warnMsg s) else none

/-- One iteration of `_apply_theme_assignment`'s outer loop: lock `slot` to
`w`, then filter every overlapping non-pinned slot's domain. -/
def applyOnePin (slots : List Slot) (ov : OvMap) (ta : List (Slot × Word))
    (slot : Slot) (w : Word) (ds : Domains) : Domains :=
  slots.foldl
    (fun d other =>
      if hasKey ta other then d
      else
        match lookupOv ov slot other with
        | none => d
        | some (i1, i2) =>
            updateD d other ((d other).filter fun x => charAt x i2 == charAt w i1))
    (updateD ds slot [w])

/-- `CrosswordSolver._apply_theme_assignment` (iterating the pin dictionary
in insertion order). -/
def applyThemeAssignment (slots : List Slot) (ov : OvMap) (ta : List (Slot × Word)) :
    List (Slot × Word) → Domains → Domains
  | [], ds => ds
  | (slot, w) :: rest, ds =>
      applyThemeAssignment slots ov ta rest (applyOnePin slots ov ta slot w ds)

/-- `CrosswordSolver.__init__` (an empty `ta` list is the `None` default; the
`_apply_theme_assignment` pre-pass is then the identity, as in the source). -/
def mkSolver (slots : List Slot) (wordList : List Word) (ov : OvMap)
    (theme : Option (Word → ℚ)) (ta : List (Slot × Word)) (influence : ℚ) : Solver :=
  let wbl := wordsByLength wordList
  let ds0 := initializeDomains slots wbl
  let ds := applyThemeAssignment slots ov ta ta ds0
  { slots := slots, overlaps := ov, theme := theme, themeInfluence := influence,
    wordsByLen := wbl, domains := ds, themeAssignment := ta,
    backtrackCount := 0, ac3Count := 0 }

/-- `CrosswordSolver.__init__` wrapped in `Except`, exposing the (absent)
failure channel of construction, together with the warnings printed: the
source constructor raises on no input and always completes. -/
def mkSolverE (slots : List Slot) (wordList : List Word) (ov : OvMap)
    (theme : Option (Word → ℚ)) (ta : List (Slot × Word)) (influence : ℚ) :
    Except String (Solver × List String) :=
  .ok (mkSolver slots wordList ov theme ta influence,
       initWarnings slots (wordsByLength wordList))

/-- `CrosswordSolver._is_consistent`. -/
def isConsistent (slv : Solver) (slot : Slot) (w : Word) (a : Assignment) : Bool :=
  slv.slots.all fun other =>
    if hasKey a other then
      match lookupOv slv.overlaps slot other with
      | none => true
      | some (i1, i2) => charAt w i1 == charAt (aGet a other) i2
    else true

/-- The `count_conflicts` inner function of the live `_order_domain_values`
(the second definition, solver.py lines 404-443): the number of words this
word would eliminate from yet-unassigned overlapping slots' domains. -/
def countConflicts (slv : Solver) (slot : Slot) (a : Assignment) (w : Word) : Nat :=
  slv.slots.foldl
    (fun conflicts neighbor =>
      if hasKey a neighbor then conflicts
      else
        match lookupOv slv.overlaps slot neighbor with
        | none => conflicts
        | some (i1, i2) =>
            conflicts +
              (slv.domains neighbor).countP fun nw => !(charAt w i1 == charAt nw i2))
    0

/-- Stable insertion into a key-sorted list (earlier elements stay before
later ones of equal key, as Python's stable `list.sort` guarantees). -/
def stableInsert {κ : Type} [LinearOrder κ] (key : Word → κ) (x : Word) :
    List Word → List Word
  | [] => [x]
  | y :: ys => if key y < key x then y :: stableInsert key x ys else x :: y :: ys

/-- Python's stable `list.sort(key=...)`. -/
def stableSort {κ : Type} [LinearOrder κ] (key : Word → κ) : List Word → List Word
  | [] => []
  | x :: xs => stableInsert key x (stableSort key xs)

/-- The live `CrosswordSolver._order_domain_values` (second definition,
lines 404-443, which shadows the first): consistent words of the slot's
domain, sorted by ascending conflict count (pure LCV). -/
def orderDomainValues (slv : Solver) (slot : Slot) (a : Assignment) : List Word :=
  stableSort (countConflicts slv slot a)
    ((slv.domains slot).filter fun w => isConsistent slv slot w a)

/-- The `score_word` inner function of the shadowed `_order_domain_values`
(first definition, lines 152-202): `conflicts - (theme_score/100) * conflicts
* theme_influence`.  Its conflict loop is textually the conflict count of the
second definition (`countConflicts`). -/
def scoreWordThemed (slv : Solver) (slot : Slot) (a : Assignment) (w : Word) : ℚ :=
  let conflicts : ℚ := (countConflicts slv slot a w : ℚ)
  let themeScore : ℚ := match slv.theme with | none => 0 | some f => f w
  let themeBonus := themeScore / 100 * conflicts * slv.themeInfluence
  conflicts - themeBonus

/-- The shadowed `CrosswordSolver._order_domain_values` (first definition,
lines 152-202): LCV cost biased by theme score.  Dead code in the source —
the second definition of the same name replaces it in the class. -/
def orderDomainValuesThemed (slv : Solver) (slot : Slot) (a : Assignment) : List Word :=
  stableSort (scoreWordThemed slv slot a)
    ((slv.domains slot).filter fun w => isConsistent slv slot w a)

/-- The `slot_priority` key of `_select_unassigned_slot`:
`(remaining consistent words, -overlap degree)`. -/
def slotPriority (slv : Solver) (a : Assignment) (slot : Slot) : Nat × Int :=
  let valid := ((slv.domains slot).filter fun w => isConsistent slv slot w a).length
  let deg := (slv.slots.filter fun s => (lookupOv slv.overlaps slot s).isSome).length
  (valid, -(deg : Int))

/-- Python tuple `<` on the priority keys. -/
def priLt (p q : Nat × Int) : Bool :=
  decide (p.1 < q.1) || (decide (p.1 = q.1) && decide (p.2 < q.2))

/-- Python `min(xs, key=...)`: the first element with minimal key
(`none` for an empty list, where the source raises `ValueError`). -/
def pyMin (key : Slot → Nat × Int) : List Slot → Option Slot
  | [] => none
  | x :: xs => some (xs.foldl (fun best s => if priLt (key s) (key best) then s else best) x)

/-- `CrosswordSolver._select_unassigned_slot`. -/
def selectUnassignedSlot (slv : Solver) (a : Assignment) : Option Slot :=
  pyMin (slotPriority slv a) (slv.slots.filter fun s => !hasKey a s)

/-- The words of `domains[s1]` surviving `_revise` against `s2` (the
complement of its `to_remove` set): those with a compatible partner in
`domains[s2]` at the overlap indices. -/
def reviseFilter (slv : Solver) (s1 s2 : Slot) (i1 i2 : Nat) : List Word :=
  (slv.domains s1).filter fun w1 =>
    (slv.domains s2).any fun w2 => charAt w1 i1 == charAt w2 i2

/-- `CrosswordSolver._revise`: remove from `domains[s1]` the words with no
compatible partner in `domains[s2]`; report whether anything was removed. -/
def revise (slv : Solver) (s1 s2 : Slot) : Bool × Solver :=
  match lookupOv slv.overlaps s1 s2 with
  | none => (false, slv)
  | some (i1, i2) =>
      if (reviseFilter slv s1 s2 i1 i2).length = (slv.domains s1).length then (false, slv)
      else (true, { slv with domains := updateD slv.domains s1 (reviseFilter slv s1 s2 i1 i2) })

theorem revise_eq_none {slv : Solver} {s1 s2 : Slot}
    (hl : lookupOv slv.overlaps s1 s2 = none) : revise slv s1 s2 = (false, slv) := by
  unfold revise
  rw [hl]

theorem revise_eq_some {slv : Solver} {s1 s2 : Slot} {i1 i2 : Nat}
    (hl : lookupOv slv.overlaps s1 s2 = some (i1, i2)) :
    revise slv s1 s2 =
      if (reviseFilter slv s1 s2 i1 i2).length = (slv.domains s1).length then (false, slv)
      else (true, { slv with domains := updateD slv.domains s1 (reviseFilter slv s1 s2 i1 i2) }) := by
  unfold revise
  rw [hl]

/-- The arcs re-enqueued after a successful revision of `s1` (the
`for slot in self.slots` loop at the end of `ac3`'s body). -/
def newArcs (slv : Solver) (s1 s2 : Slot) : List (Slot × Slot) :=
  slv.slots.filterMap fun s =>
    if s ≠ s1 ∧ s ≠ s2 ∧ (lookupOv slv.overlaps s s1).isSome then some (s, s1) else none

/-- Sum of the domain sizes at the first components of the overlap arcs:
the quantity that shrinks whenever `_revise` removes a word. -/
def ac3Measure (slv : Solver) : Nat :=
  (slv.overlaps.map fun e => (slv.domains e.1.1).length).sum

theorem sum_lt_of_pointwise {ov : OvMap} {ds ds' : Domains}
    (hle : ∀ s, (ds' s).length ≤ (ds s).length)
    (hlt : ∃ e ∈ ov, (ds' e.1.1).length < (ds e.1.1).length) :
    (ov.map fun e => (ds' e.1.1).length).sum < (ov.map fun e => (ds e.1.1).length).sum :=
  List.sum_lt_sum _ _ (fun i _ => hle i.1.1) hlt

theorem lookupOv_isSome_mem {ov : OvMap} {a b : Slot}
    (h : (lookupOv ov a b).isSome) : ∃ v, ((a, b), v) ∈ ov := by
  unfold lookupOv at h
  cases hf : ov.find? fun e => decide (e.1 = (a, b)) with
  | none => simp [hf] at h
  | some e =>
      have hmem := List.mem_of_find?_eq_some hf
      have hp := List.find?_some hf
      simp only [decide_eq_true_eq] at hp
      exact ⟨e.2, by rwa [← hp, Prod.mk.eta]⟩

theorem revise_true_spec {slv : Solver} {s1 s2 : Slot} {slv' : Solver}
    (h : revise slv s1 s2 = (true, slv')) :
    slv'.slots = slv.slots ∧ slv'.overlaps = slv.overlaps ∧
    (∀ t, (slv'.domains t).length ≤ (slv.domains t).length) ∧
    (slv'.domains s1).length < (slv.domains s1).length ∧
    (lookupOv slv.overlaps s1 s2).isSome := by
  cases hl : lookupOv slv.overlaps s1 s2 with
  | none => rw [revise_eq_none hl] at h; simp at h
  | some v =>
      obtain ⟨i1, i2⟩ := v
      rw [revise_eq_some hl] at h
      split at h
      · simp at h
      · rename_i hlen
        obtain ⟨-, h2⟩ := Prod.mk.injEq .. ▸ h
        subst h2
        refine ⟨rfl, rfl, ?_, ?_, by simp⟩
        · intro t
          simp only [updateD]
          split
          · rename_i ht; subst ht; exact List.length_filter_le _ _
          · exact le_rfl
        · simp only [updateD, if_pos rfl]
          exact lt_of_le_of_ne (List.length_filter_le _ _) hlen

theorem revise_measure {slv : Solver} {s1 s2 : Slot} {slv' : Solver}
    (h : revise slv s1 s2 = (true, slv')) :
    ac3Measure slv' < ac3Measure slv := by
  obtain ⟨-, hov, hle, hlt, hsome⟩ := revise_true_spec h
  obtain ⟨v, hv⟩ := lookupOv_isSome_mem hsome
  unfold ac3Measure
  rw [hov]
  exact sum_lt_of_pointwise hle ⟨((s1, s2), v), hv, hlt⟩

theorem revise_false_eq {slv : Solver} {s1 s2 : Slot}
    (h : (revise slv s1 s2).1 = false) : (revise slv s1 s2).2 = slv := by
  cases hl : lookupOv slv.overlaps s1 s2 with
  | none => rw [revise_eq_none hl]
  | some v =>
      obtain ⟨i1, i2⟩ := v
      rw [revise_eq_some hl] at h ⊢
      split at h
      · rename_i hlen; simp only [if_pos hlen]
      · simp at h

/-- An upper bound on the iterations the `while queue:` loop of `ac3` can
still make: each iteration either pops without revising, or shrinks the
domain-size sum while enqueuing at most `slots.length` arcs. -/
def ac3Fuel (slv : Solver) (queue : List (Slot × Slot)) : Nat :=
  queue.length + ac3Measure slv * (slv.slots.length + 1)

/-- The `while queue:` loop of `CrosswordSolver.ac3`, with its iteration
bound as structural fuel (`ac3Go` supplies sufficient fuel; the fuel-out
value is never reached, by `ac3GoF_irrel`). -/
def ac3GoF : Nat → Solver → List (Slot × Slot) → Bool × Solver
  | _, slv, [] => (true, slv)
  | 0, slv, _ :: _ => (true, slv)
  | fuel + 1, slv, (s1, s2) :: queue =>
      match revise slv s1 s2 with
      | (false, _) => ac3GoF fuel slv queue
      | (true, slv') =>
          if (slv'.domains s1).isEmpty then (false, slv')
          else ac3GoF fuel slv' (queue ++ newArcs slv' s1 s2)

/-- The `while queue:` loop of `CrosswordSolver.ac3`. -/
def ac3Go (slv : Solver) (queue : List (Slot × Slot)) : Bool × Solver :=
  ac3GoF (ac3Fuel slv queue) slv queue

/-- `CrosswordSolver.ac3`: the initial queue holds every overlap arc, in
dictionary order. -/
def ac3 (slv : Solver) : Bool × Solver := ac3Go slv (slv.overlaps.map (·.1))

theorem ac3Fuel_cons (slv : Solver) (s1 s2 : Slot) (queue : List (Slot × Slot)) :
    ac3Fuel slv ((s1, s2) :: queue) = ac3Fuel slv queue + 1 := by
  unfold ac3Fuel
  simp only [List.length_cons]
  omega

theorem ac3Fuel_revise_true {slv slv' : Solver} {s1 s2 : Slot}
    (h : revise slv s1 s2 = (true, slv')) (queue : List (Slot × Slot)) :
    ac3Fuel slv' (queue ++ newArcs slv' s1 s2) + 1 ≤ ac3Fuel slv ((s1, s2) :: queue) := by
  obtain ⟨hslots, -, -, -, -⟩ := revise_true_spec h
  have hM : ac3Measure slv' < ac3Measure slv := revise_measure h
  have hn : (newArcs slv' s1 s2).length ≤ slv'.slots.length :=
    List.length_filterMap_le _ _
  rw [hslots] at hn
  unfold ac3Fuel
  rw [hslots]
  simp only [List.length_append, List.length_cons]
  have hmul : (ac3Measure slv' + 1) * (slv.slots.length + 1) ≤
      ac3Measure slv * (slv.slots.length + 1) :=
    Nat.mul_le_mul_right _ (by omega)
  have hexp : (ac3Measure slv' + 1) * (slv.slots.length + 1) =
      ac3Measure slv' * (slv.slots.length + 1) + slv.slots.length + 1 := by ring
  omega

theorem ac3GoF_irrel :
    ∀ f1 f2 slv queue, ac3Fuel slv queue ≤ f1 → ac3Fuel slv queue ≤ f2 →
      ac3GoF f1 slv queue = ac3GoF f2 slv queue := by
  intro f1
  induction f1 with
  | zero =>
      intro f2 slv queue h1 h2
      cases queue with
      | nil => cases f2 <;> rfl
      | cons arc q =>
          rw [show arc = (arc.1, arc.2) from rfl, ac3Fuel_cons] at h1
          omega
  | succ f1 ih =>
      intro f2 slv queue h1 h2
      cases queue with
      | nil => cases f2 <;> rfl
      | cons arc q =>
          obtain ⟨s1, s2⟩ := arc
          cases f2 with
          | zero => rw [ac3Fuel_cons] at h2; omega
          | succ f2 =>
              rw [ac3Fuel_cons] at h1 h2
              simp only [ac3GoF]
              cases hrev : revise slv s1 s2 with
              | mk b slv' =>
                  cases b with
                  | false => exact ih f2 slv q (by omega) (by omega)
                  | true =>
                      by_cases hemp : (slv'.domains s1).isEmpty
                      · simp [hemp]
                      · simp only [hemp, if_neg, Bool.false_eq_true, not_false_eq_true]
                        have hb := ac3Fuel_revise_true hrev q
                        rw [ac3Fuel_cons] at hb
                        exact ih f2 slv' (q ++ newArcs slv' s1 s2) (by omega) (by omega)

theorem ac3Go_nil (slv : Solver) : ac3Go slv [] = (true, slv) := by
  unfold ac3Go
  generalize ac3Fuel slv [] = f
  cases f <;> rfl

/-- `ac3Go` satisfies the `while` loop's recursion. -/
theorem ac3Go_cons (slv : Solver) (s1 s2 : Slot) (queue : List (Slot × Slot)) :
    ac3Go slv ((s1, s2) :: queue) =
      match revise slv s1 s2 with
      | (false, _) => ac3Go slv queue
      | (true, slv') =>
          if (slv'.domains s1).isEmpty then (false, slv')
          else ac3Go slv' (queue ++ newArcs slv' s1 s2) := by
  unfold ac3Go
  rw [ac3Fuel_cons]
  simp only [ac3GoF]
  cases hrev : revise slv s1 s2 with
  | mk b slv' =>
      cases b with
      | false => rfl
      | true =>
          by_cases hemp : (slv'.domains s1).isEmpty
          · simp [hemp]
          · simp only [hemp, if_neg, Bool.false_eq_true, not_false_eq_true]
            have hb := ac3Fuel_revise_true hrev queue
            rw [ac3Fuel_cons] at hb
            exact ac3GoF_irrel _ _ slv' (queue ++ newArcs slv' s1 s2) (by omega) le_rfl

/-- The `for word in self._order_domain_values(...)` loop of `backtrack`:
try each word, recursing (through `bt`, the recursive `backtrack` call at
the next depth) on consistent ones and undoing the speculative assignment
when the recursion fails.  The returned triple is (return value, assignment dict
after the call, solver state after the call); `none` marks exhausted fuel. -/
def tryWords (bt : Solver → Assignment → Option (Option Assignment × Assignment × Solver))
    (slot : Slot) : Solver → List Word → Assignment →
    Option (Option Assignment × Assignment × Solver)
  | slv, [], a => some (none, a, slv)
  | slv, w :: rest, a =>
      if isConsistent slv slot w a then
        match bt slv (aSet a slot w) with
        | none => none
        | some (some sol, a2, slv2) => some (some sol, a2, slv2)
        | some (none, a2, slv2) => tryWords bt slot slv2 rest (aDel a2 slot)
      else tryWords bt slot slv rest a

/-- `CrosswordSolver.backtrack`.  `fuel` bounds the recursion depth; a `none`
result marks exhausted fuel (the Python call still running) and is
distinguished from the source's `return None`, which is `some (none, ·, ·)`. -/
def backtrack : Nat → Solver → Assignment →
    Option (Option Assignment × Assignment × Solver)
  | 0, _, _ => none
  | fuel + 1, slv, a =>
      let slv1 := { slv with backtrackCount := slv.backtrackCount + 1 }
      if a.length = slv1.slots.length then some (some a, a, slv1)
      else
        match selectUnassignedSlot slv1 a with
        | none => some (none, a, slv1)
        | some slot => tryWords (backtrack fuel) slot slv1 (orderDomainValues slv1 slot a) a

/-- `CrosswordSolver.solve`: AC-3, then backtracking from the empty
assignment.  Returns (return value, final solver state, printed log); `none`
marks exhausted fuel.  The printed success/failure message tests the
*truthiness* of the returned dict, as the source's `if solution:` does. -/
def solve (slv : Solver) (fuel : Nat) :
    Option (Option Assignment × Solver × List String) :=
  let n := slv.slots.length
  let log0 := [s!"Starting solve with {n} slots...", "Running AC-3..."]
  match ac3 slv with
  | (false, slv1) =>
      some (none, slv1, log0 ++ ["AC-3 failed - puzzle has no solution"])
  | (true, slv1) =>
      let log1 := log0 ++ ["AC-3 complete. Starting backtracking search..."]
      let slv2 := { slv1 with backtrackCount := 0 }
      match backtrack fuel slv2 [] with
      | none => none
      | some (res, _, slv3) =>
          let k := slv3.backtrackCount
          let msg :=
            match res with
            | some sol =>
                if sol.isEmpty then s!"✗ No solution found after {k} backtracks"
                else s!"✓ Solution found after {k} backtracks"
            | none => s!"✗ No solution found after {k} backtracks"
          some (res, slv3, log1 ++ [msg])

/-! ### Overlap-map lemmas (claim C9) -/

theorem lookupOv_nil (a b : Slot) : lookupOv [] a b = none := rfl

theorem lookupOv_ainsert (m : OvMap) (k : Slot × Slot) (v : Nat × Nat) (a b : Slot) :
    lookupOv (ainsert m k v) a b = if (a, b) = k then some v else lookupOv m a b := by
  unfold ainsert lookupOv
  split
  · rename_i hpres
    rw [List.find?_map]
    by_cases hk : (a, b) = k
    · subst hk
      have hq : ((fun e : (Slot × Slot) × Nat × Nat => decide (e.1 = (a, b))) ∘
          fun e => if e.1 = (a, b) then ((a, b), v) else e) =
          fun e => decide (e.1 = (a, b)) := by
        funext e
        by_cases he : e.1 = (a, b) <;> simp [he]
      rw [hq]
      cases hf : m.find? fun e => decide (e.1 = (a, b)) with
      | none =>
          rw [List.find?_eq_none] at hf
          rw [List.any_eq_true] at hpres
          obtain ⟨x, hx, hpx⟩ := hpres
          exact absurd hpx (hf x hx)
      | some e =>
          have := List.find?_some hf
          simp only [decide_eq_true_eq] at this
          simp [this]
    · have hq : ((fun e : (Slot × Slot) × Nat × Nat => decide (e.1 = (a, b))) ∘
          fun e => if e.1 = k then (k, v) else e) =
          fun e => decide (e.1 = (a, b)) := by
        funext e
        by_cases he : e.1 = k
        · simp only [he, if_pos rfl, Function.comp]
          have h1 : ¬ (k = (a, b)) := fun h => hk h.symm
          have h2 : ¬ (e.1 = (a, b)) := he ▸ h1
          simp [h1, h2]
        · simp [Function.comp, he]
      rw [hq]
      rw [if_neg hk]
      cases hf : m.find? fun e => decide (e.1 = (a, b)) with
      | none => simp
      | some e =>
          have := List.find?_some hf
          simp only [decide_eq_true_eq] at this
          have hek : ¬ (e.1 = k) := fun h => hk (this ▸ h)
          simp [hek]
  · rename_i habs
    rw [List.find?_append]
    by_cases hk : (a, b) = k
    · subst hk
      have hnone : (m.find? fun e => decide (e.1 = (a, b))) = none := by
        rw [List.find?_eq_none]
        intro x hx
        simp only [decide_eq_true_eq]
        intro hxk
        exact habs (List.any_eq_true.mpr ⟨x, hx, by simp [hxk]⟩)
      simp [hnone]
    · have h1 : ¬ (k = (a, b)) := fun h => hk h.symm
      rw [if_neg hk]
      simp [List.find?, h1, Option.or_none]

/-- The single invariant behind claim C9: every entry of an overlap map built
by `calculate_overlaps` has a symmetric partner, matching shared cells (with
the indices in bounds), and differing directions. -/
def OvGood (m : OvMap) : Prop :=
  ∀ A B i j, lookupOv m A B = some (i, j) →
    lookupOv m B A = some (j, i) ∧ A.cells.get? i = B.cells.get? j ∧
    (A.cells.get? i).isSome ∧ A.direction ≠ B.direction

theorem matchPairs_spec {s1 s2 : Slot} {i j : Nat} (h : (i, j) ∈ matchPairs s1 s2) :
    ∃ c, s1.cells.get? i = some c ∧ s2.cells.get? j = some c := by
  unfold matchPairs at h
  rw [List.mem_filterMap] at h
  obtain ⟨p, hp, hf⟩ := h
  cases hfi : firstIdx s2.cells p.2 with
  | none => rw [hfi] at hf; simp at hf
  | some j' =>
      rw [hfi] at hf
      simp only [Option.map_some', Option.some.injEq, Prod.mk.injEq] at hf
      obtain ⟨hi, hj⟩ := hf
      have hget : s1.cells.get? p.1 = some p.2 := by
        rw [List.get?_eq_getElem?]
        exact List.mem_enum_iff_getElem?.mp hp
      unfold firstIdx at hfi
      rw [List.findIdx?_eq_some_iff_getElem] at hfi
      obtain ⟨hlt, hpj, -⟩ := hfi
      simp only [decide_eq_true_eq] at hpj
      refine ⟨p.2, by rwa [hi] at hget, ?_⟩
      rw [← hj, List.get?_eq_getElem?, List.getElem?_eq_getElem hlt, hpj]

theorem pair_ne_swap {s1 s2 : Slot} (hne : s1 ≠ s2) :
    ((s1, s2) : Slot × Slot) ≠ (s2, s1) := by
  intro h
  rw [Prod.mk.injEq] at h
  exact hne h.1

theorem OvGood_insPair {acc : OvMap} {s1 s2 : Slot} {i j : Nat} (hg : OvGood acc)
    (hdir : s1.direction ≠ s2.direction)
    (hc : ∃ c, s1.cells.get? i = some c ∧ s2.cells.get? j = some c) :
    OvGood (ainsert (ainsert acc (s1, s2) (i, j)) (s2, s1) (j, i)) := by
  have hne : s1 ≠ s2 := fun h => hdir (h ▸ rfl)
  obtain ⟨c, hc1, hc2⟩ := hc
  intro A B i' j' hl
  rw [lookupOv_ainsert, lookupOv_ainsert] at hl
  rw [lookupOv_ainsert, lookupOv_ainsert]
  by_cases h1 : (A, B) = (s2, s1)
  · rw [if_pos h1] at hl
    rw [Prod.mk.injEq] at h1
    obtain ⟨hA, hB⟩ := h1
    simp only [Option.some.injEq, Prod.mk.injEq] at hl
    obtain ⟨hij1, hij2⟩ := hl
    subst hA; subst hB; subst hij1; subst hij2
    rw [if_neg (pair_ne_swap hne), if_pos rfl]
    exact ⟨rfl, by rw [hc1, hc2], by rw [hc2]; rfl, fun h => hdir h.symm⟩
  · rw [if_neg h1] at hl
    by_cases h2 : (A, B) = (s1, s2)
    · rw [if_pos h2] at hl
      rw [Prod.mk.injEq] at h2
      obtain ⟨hA, hB⟩ := h2
      simp only [Option.some.injEq, Prod.mk.injEq] at hl
      obtain ⟨hij1, hij2⟩ := hl
      subst hA; subst hB; subst hij1; subst hij2
      rw [if_pos rfl]
      exact ⟨rfl, by rw [hc1, hc2], by rw [hc1]; rfl, hdir⟩
    · rw [if_neg h2] at hl
      obtain ⟨hsym, hcell, hsome, hd⟩ := hg A B i' j' hl
      have hba1 : ((B, A) : Slot × Slot) ≠ (s2, s1) := by
        intro h
        rw [Prod.mk.injEq] at h
        exact h2 (by rw [Prod.mk.injEq]; exact ⟨h.2, h.1⟩)
      have hba2 : ((B, A) : Slot × Slot) ≠ (s1, s2) := by
        intro h
        rw [Prod.mk.injEq] at h
        exact h1 (by rw [Prod.mk.injEq]; exact ⟨h.2, h.1⟩)
      rw [if_neg hba1, if_neg hba2]
      exact ⟨hsym, hcell, hsome, hd⟩

theorem OvGood_insOverlap {s1 s2 : Slot} (hdir : s1.direction ≠ s2.direction) :
    ∀ (ps : List (Nat × Nat)) (acc : OvMap),
      (∀ p ∈ ps, p ∈ matchPairs s1 s2) → OvGood acc →
      OvGood (ps.foldl
        (fun m p => ainsert (ainsert m (s1, s2) (p.1, p.2)) (s2, s1) (p.2, p.1)) acc)
  | [], acc, _, hg => hg
  | p :: ps, acc, hps, hg => by
      rw [List.foldl_cons]
      exact OvGood_insOverlap hdir ps _ (fun q hq => hps q (List.mem_cons_of_mem _ hq))
        (OvGood_insPair hg hdir (matchPairs_spec (hps p (List.mem_cons_self _ _))))

theorem OvGood_overlapsPass (s1 : Slot) :
    ∀ (rest : List Slot) (acc : OvMap), OvGood acc → OvGood (overlapsPass s1 rest acc)
  | [], _, hg => hg
  | s2 :: rest, acc, hg => by
      unfold overlapsPass
      apply OvGood_overlapsPass s1 rest
      split
      · exact hg
      · rename_i hdir
        exact OvGood_insOverlap hdir (matchPairs s1 s2) acc (fun _ h => h) hg

theorem OvGood_calcGo :
    ∀ (slots : List Slot) (acc : OvMap), OvGood acc → OvGood (calcOverlapsGo slots acc)
  | [], _, hg => hg
  | s1 :: rest, acc, hg =>
      OvGood_calcGo rest _ (OvGood_overlapsPass s1 rest acc hg)

theorem OvGood_calculate_overlaps (slots : List Slot) :
    OvGood (calculate_overlaps slots) :=
  OvGood_calcGo slots [] (fun _ _ _ _ h => by rw [lookupOv_nil] at h; cases h)

/-- C9: for every slot list, the map returned by `calculate_overlaps` is
symmetric — a key `(A, B) ↦ (i, j)` forces the key `(B, A) ↦ (j, i)` — and
correct: the indexed cells are equal (`A.cells[i] == B.cells[j]`, with `i` in
bounds) and the two slots have differing directions, so no same-direction
pair ever appears in the map. -/
theorem c9_overlap_symmetry (slots : List Slot) (A B : Slot) (i j : Nat)
    (h : lookupOv (calculate_overlaps slots) A B = some (i, j)) :
    lookupOv (calculate_overlaps slots) B A = some (j, i) ∧
    A.cells.get? i = B.cells.get? j ∧ (A.cells.get? i).isSome ∧
    A.direction ≠ B.direction :=
  OvGood_calculate_overlaps slots A B i j h

/-! ### Well-formedness of solver configurations -/

/-- Both slots of every overlap arc lie in the solver's slot list (true of
the pipeline's maps, which `calculate_overlaps` builds from the slot list;
`keysWF_calculate_overlaps` below). -/
def KeysWF (slots : List Slot) (ov : OvMap) : Prop :=
  ∀ a b : Slot, (lookupOv ov a b).isSome → a ∈ slots ∧ b ∈ slots

/-- The overlap map is symmetric (holds of `calculate_overlaps` output, by
the C9 invariant). -/
def SymOv (ov : OvMap) : Prop :=
  ∀ a b : Slot, ∀ i j : Nat,
    lookupOv ov a b = some (i, j) → lookupOv ov b a = some (j, i)

/-- No slot overlaps itself (a consequence of the C9 differing-directions
invariant). -/
def IrreflOv (ov : OvMap) : Prop := ∀ a : Slot, lookupOv ov a a = none

theorem symOv_calculate_overlaps (slots : List Slot) :
    SymOv (calculate_overlaps slots) :=
  fun a b i j h => (OvGood_calculate_overlaps slots a b i j h).1

theorem irreflOv_calculate_overlaps (slots : List Slot) :
    IrreflOv (calculate_overlaps slots) := by
  intro a
  cases h : lookupOv (calculate_overlaps slots) a a with
  | none => rfl
  | some v =>
      obtain ⟨i, j⟩ := v
      exact absurd rfl (OvGood_calculate_overlaps slots a a i j h).2.2.2

/-- Every entry key of the map has both components in `slots`. -/
def KeysIn (m : OvMap) (slots : List Slot) : Prop :=
  ∀ e ∈ m, e.1.1 ∈ slots ∧ e.1.2 ∈ slots

theorem KeysIn_ainsert {m : OvMap} {slots : List Slot} {k : Slot × Slot} {v : Nat × Nat}
    (hm : KeysIn m slots) (hk1 : k.1 ∈ slots) (hk2 : k.2 ∈ slots) :
    KeysIn (ainsert m k v) slots := by
  intro e he
  unfold ainsert at he
  split at he
  · rw [List.mem_map] at he
    obtain ⟨x, hx, hxe⟩ := he
    by_cases hxk : x.1 = k
    · rw [if_pos hxk] at hxe
      rw [← hxe]
      exact ⟨hk1, hk2⟩
    · rw [if_neg hxk] at hxe
      rw [← hxe]
      exact hm x hx
  · rcases List.mem_append.mp he with h | h
    · exact hm e h
    · rw [List.mem_singleton] at h
      rw [h]
      exact ⟨hk1, hk2⟩

theorem KeysIn_insFold {slots : List Slot} {s1 s2 : Slot}
    (h1 : s1 ∈ slots) (h2 : s2 ∈ slots) :
    ∀ (ps : List (Nat × Nat)) (acc : OvMap), KeysIn acc slots →
      KeysIn (ps.foldl
        (fun m p => ainsert (ainsert m (s1, s2) (p.1, p.2)) (s2, s1) (p.2, p.1)) acc)
        slots
  | [], _, hg => hg
  | p :: ps, acc, hg => by
      rw [List.foldl_cons]
      exact KeysIn_insFold h1 h2 ps _
        (KeysIn_ainsert (KeysIn_ainsert hg h1 h2) h2 h1)

theorem KeysIn_insOverlap {slots : List Slot} {s1 s2 : Slot}
    (h1 : s1 ∈ slots) (h2 : s2 ∈ slots) {acc : OvMap} (hg : KeysIn acc slots) :
    KeysIn (insOverlap acc s1 s2) slots := by
  unfold insOverlap
  exact KeysIn_insFold h1 h2 (matchPairs s1 s2) acc hg

theorem KeysIn_overlapsPass {slots : List Slot} {s1 : Slot} (h1 : s1 ∈ slots) :
    ∀ (rest : List Slot) (acc : OvMap), rest ⊆ slots → KeysIn acc slots →
      KeysIn (overlapsPass s1 rest acc) slots
  | [], _, _, hg => hg
  | s2 :: rest, acc, hsub, hg => by
      unfold overlapsPass
      refine KeysIn_overlapsPass h1 rest _
        (fun x hx => hsub (List.mem_cons_of_mem _ hx)) ?_
      split
      · exact hg
      · exact KeysIn_insOverlap h1 (hsub (List.mem_cons_self _ _)) hg

theorem KeysIn_calcGo {slots : List Slot} :
    ∀ (l : List Slot) (acc : OvMap), l ⊆ slots → KeysIn acc slots →
      KeysIn (calcOverlapsGo l acc) slots
  | [], _, _, hg => hg
  | s1 :: rest, acc, hsub, hg =>
      KeysIn_calcGo rest _ (fun x hx => hsub (List.mem_cons_of_mem _ hx))
        (KeysIn_overlapsPass (hsub (List.mem_cons_self _ _)) rest acc
          (fun x hx => hsub (List.mem_cons_of_mem _ hx)) hg)

theorem keysWF_calculate_overlaps (slots : List Slot) :
    KeysWF slots (calculate_overlaps slots) := by
  intro a b h
  obtain ⟨v, hv⟩ := lookupOv_isSome_mem h
  exact KeysIn_calcGo slots [] (fun x hx => hx) (fun e he => absurd he (List.not_mem_nil e))
    ((a, b), v) hv

/-! ### AC-3 preserves solutions (claim C3) -/

/-- Arc `(a, b)` needs no revision: every word of `a`'s domain has a
compatible partner in `b`'s domain at the overlap indices. -/
def ReviseOk (ov : OvMap) (ds : Domains) (a b : Slot) : Prop :=
  ∀ i j : Nat, lookupOv ov a b = some (i, j) →
    ∀ w1 ∈ ds a, ∃ w2 ∈ ds b, charAt w1 i = charAt w2 j

theorem revise_true_domains {slv : Solver} {s1 s2 : Slot} {slv' : Solver} {i1 i2 : Nat}
    (hl : lookupOv slv.overlaps s1 s2 = some (i1, i2))
    (h : revise slv s1 s2 = (true, slv')) :
    slv'.domains s1 = reviseFilter slv s1 s2 i1 i2 ∧
    (∀ t, t ≠ s1 → slv'.domains t = slv.domains t) := by
  rw [revise_eq_some hl] at h
  split at h
  · simp at h
  · obtain ⟨-, h2⟩ := Prod.mk.injEq .. ▸ h
    subst h2
    refine ⟨by simp [updateD], ?_⟩
    intro t ht
    simp [updateD, ht]

theorem revise_false_ok {slv : Solver} {s1 s2 : Slot}
    (h : (revise slv s1 s2).1 = false) :
    ReviseOk slv.overlaps slv.domains s1 s2 := by
  intro i j hl w1 hw1
  rw [revise_eq_some hl] at h
  split at h
  · rename_i hlen
    unfold reviseFilter at hlen
    rw [List.filter_length_eq_length] at hlen
    have hp := hlen w1 hw1
    rw [List.any_eq_true] at hp
    obtain ⟨w2, hw2, heq⟩ := hp
    exact ⟨w2, hw2, by simpa using heq⟩
  · simp at h

theorem ac3GoF_keeps_solution (S : Slot → Word) :
    ∀ (fuel : Nat) (slv : Solver) (queue : List (Slot × Slot)),
      KeysWF slv.slots slv.overlaps →
      (∀ a b i j, lookupOv slv.overlaps a b = some (i, j) →
        charAt (S a) i = charAt (S b) j) →
      (∀ X ∈ slv.slots, S X ∈ slv.domains X) →
      (ac3GoF fuel slv queue).1 = true ∧
      (ac3GoF fuel slv queue).2.slots = slv.slots ∧
      (ac3GoF fuel slv queue).2.overlaps = slv.overlaps ∧
      (∀ X ∈ slv.slots, S X ∈ (ac3GoF fuel slv queue).2.domains X) := by
  intro fuel
  induction fuel with
  | zero =>
      intro slv queue hk hc hinv
      cases queue with
      | nil => exact ⟨rfl, rfl, rfl, hinv⟩
      | cons arc q => exact ⟨rfl, rfl, rfl, hinv⟩
  | succ fuel ih =>
      intro slv queue hk hc hinv
      cases queue with
      | nil => exact ⟨rfl, rfl, rfl, hinv⟩
      | cons arc q =>
          obtain ⟨s1, s2⟩ := arc
          cases hrev : revise slv s1 s2 with
          | mk b slv' =>
              cases b with
              | false =>
                  have hstep : ac3GoF (fuel + 1) slv ((s1, s2) :: q) = ac3GoF fuel slv q := by
                    simp only [ac3GoF]
                    rw [hrev]
                  rw [hstep]
                  exact ih slv q hk hc hinv
              | true =>
                  obtain ⟨hslots, hov, -, -, hsome⟩ := revise_true_spec hrev
                  obtain ⟨v, hl⟩ := Option.isSome_iff_exists.mp hsome
                  obtain ⟨i1, i2⟩ := v
                  obtain ⟨hd1, hdt⟩ := revise_true_domains hl hrev
                  have hs12 := hk s1 s2 (by simp [hl])
                  have hS1 : S s1 ∈ slv'.domains s1 := by
                    rw [hd1]
                    unfold reviseFilter
                    rw [List.mem_filter]
                    refine ⟨hinv s1 hs12.1, ?_⟩
                    rw [List.any_eq_true]
                    exact ⟨S s2, hinv s2 hs12.2, by simp [hc s1 s2 i1 i2 hl]⟩
                  have hinv' : ∀ X ∈ slv'.slots, S X ∈ slv'.domains X := by
                    intro X hX
                    rw [hslots] at hX
                    by_cases hXs : X = s1
                    · subst hXs; exact hS1
                    · rw [hdt X hXs]; exact hinv X hX
                  have hemp : (slv'.domains s1).isEmpty = false := by
                    cases he : (slv'.domains s1).isEmpty
                    · rfl
                    · rw [List.isEmpty_iff] at he
                      rw [he] at hS1
                      cases hS1
                  have hstep : ac3GoF (fuel + 1) slv ((s1, s2) :: q) =
                      ac3GoF fuel slv' (q ++ newArcs slv' s1 s2) := by
                    simp only [ac3GoF]
                    rw [hrev]
                    simp [hemp]
                  rw [hstep]
                  have hres := ih slv' (q ++ newArcs slv' s1 s2)
                    (by rw [hslots, hov]; exact hk) (by rw [hov]; exact hc) hinv'
                  refine ⟨hres.1, ?_, ?_, ?_⟩
                  · rw [hres.2.1, hslots]
                  · rw [hres.2.2.1, hov]
                  · intro X hX
                    exact hres.2.2.2 X (by rw [hslots]; exact hX)

/-- C3: AC-3 never removes a true solution.  For every total assignment `S`
mapping each slot to a matching-length dictionary word and satisfying every
overlap constraint, running `ac3()` on the freshly constructed solver leaves
`S X` in `domains[X]` for every slot `X`, and `ac3()` returns `True`.
(`KeysWF` states that the overlap map only mentions the solver's slots, as
the maps built by `calculate_overlaps` do.) -/
theorem c3_ac3_never_removes_solution (slots : List Slot) (words : List Word)
    (ov : OvMap) (S : Slot → Word)
    (hk : KeysWF slots ov)
    (hband : ∀ X ∈ slots, S X ∈ words ∧ (S X).length = X.length)
    (hsat : ∀ a b i j, lookupOv ov a b = some (i, j) →
      charAt (S a) i = charAt (S b) j) :
    (ac3 (mkSolver slots words ov none [] 1)).1 = true ∧
    ∀ X ∈ slots, S X ∈ (ac3 (mkSolver slots words ov none [] 1)).2.domains X := by
  have hinv : ∀ X ∈ slots, S X ∈ (mkSolver slots words ov none [] 1).domains X := by
    intro X hX
    show S X ∈ initializeDomains slots (wordsByLength words) X
    unfold initializeDomains
    rw [if_pos hX]
    unfold wordsByLength
    rw [List.mem_dedup, List.mem_filter]
    exact ⟨(hband X hX).1, by simp [(hband X hX).2]⟩
  have h := ac3GoF_keeps_solution S
    (ac3Fuel (mkSolver slots words ov none [] 1)
      ((mkSolver slots words ov none [] 1).overlaps.map (·.1)))
    (mkSolver slots words ov none [] 1)
    ((mkSolver slots words ov none [] 1).overlaps.map (·.1)) hk hsat hinv
  exact ⟨h.1, h.2.2.2⟩

/-! ### AC-3 establishes arc consistency (claim C4) -/

theorem ne_of_lookupOv_irrefl {ov : OvMap} (hirr : IrreflOv ov) {s1 s2 : Slot}
    {v : Nat × Nat} (hl : lookupOv ov s1 s2 = some v) : s1 ≠ s2 := by
  intro h
  subst h
  rw [hirr s1] at hl
  cases hl

theorem ac3GoF_arc_consistent :
    ∀ (fuel : Nat) (slv : Solver) (queue : List (Slot × Slot)),
      ac3Fuel slv queue ≤ fuel →
      KeysWF slv.slots slv.overlaps →
      SymOv slv.overlaps →
      IrreflOv slv.overlaps →
      (∀ a b : Slot, (lookupOv slv.overlaps a b).isSome →
        (a, b) ∈ queue ∨ ReviseOk slv.overlaps slv.domains a b) →
      (ac3GoF fuel slv queue).1 = true →
      ∀ a b : Slot, ReviseOk slv.overlaps (ac3GoF fuel slv queue).2.domains a b := by
  intro fuel
  induction fuel with
  | zero =>
      intro slv queue hfuel hk hsym hirr hq htrue a b i j hl w1 hw1
      cases queue with
      | nil =>
          rcases hq a b (by simp [hl]) with hin | hok
          · cases hin
          · exact hok i j hl w1 hw1
      | cons arc q =>
          rw [show arc = (arc.1, arc.2) from rfl, ac3Fuel_cons] at hfuel
          omega
  | succ fuel ih =>
      intro slv queue hfuel hk hsym hirr hq htrue
      cases queue with
      | nil =>
          intro a b i j hl w1 hw1
          rcases hq a b (by simp [hl]) with hin | hok
          · cases hin
          · exact hok i j hl w1 hw1
      | cons arc q =>
          obtain ⟨s1, s2⟩ := arc
          rw [ac3Fuel_cons] at hfuel
          cases hrev : revise slv s1 s2 with
          | mk bb slv' =>
              cases bb with
              | false =>
                  have hstep : ac3GoF (fuel + 1) slv ((s1, s2) :: q) = ac3GoF fuel slv q := by
                    simp only [ac3GoF]
                    rw [hrev]
                  rw [hstep] at htrue ⊢
                  have hq' : ∀ a b : Slot, (lookupOv slv.overlaps a b).isSome →
                      (a, b) ∈ q ∨ ReviseOk slv.overlaps slv.domains a b := by
                    intro a b hab
                    rcases hq a b hab with hin | hok
                    · rcases List.mem_cons.mp hin with heq | hin'
                      · right
                        obtain ⟨ha, hb⟩ := Prod.mk.injEq .. ▸ heq
                        subst ha; subst hb
                        exact revise_false_ok (by rw [hrev])
                      · exact Or.inl hin'
                    · exact Or.inr hok
                  exact ih slv q (by omega) hk hsym hirr hq' htrue
              | true =>
                  obtain ⟨hslots, hov, -, -, hsome⟩ := revise_true_spec hrev
                  obtain ⟨v, hl⟩ := Option.isSome_iff_exists.mp hsome
                  obtain ⟨i1, i2⟩ := v
                  obtain ⟨hd1, hdt⟩ := revise_true_domains hl hrev
                  have hne12 : s1 ≠ s2 := ne_of_lookupOv_irrefl hirr hl
                  by_cases hemp : (slv'.domains s1).isEmpty
                  · have hstep : ac3GoF (fuel + 1) slv ((s1, s2) :: q) = (false, slv') := by
                      simp only [ac3GoF]
                      rw [hrev]
                      simp [hemp]
                    rw [hstep] at htrue
                    cases htrue
                  · have hstep : ac3GoF (fuel + 1) slv ((s1, s2) :: q) =
                        ac3GoF fuel slv' (q ++ newArcs slv' s1 s2) := by
                      simp only [ac3GoF]
                      rw [hrev]
                      simp [hemp]
                    rw [hstep] at htrue ⊢
                    have hbound := ac3Fuel_revise_true hrev q
                    rw [ac3Fuel_cons] at hbound
                    have hsub1 : ∀ w, w ∈ slv'.domains s1 → w ∈ slv.domains s1 := by
                      intro w hw
                      rw [hd1] at hw
                      unfold reviseFilter at hw
                      exact (List.mem_filter.mp hw).1
                    have hq' : ∀ a b : Slot, (lookupOv slv'.overlaps a b).isSome →
                        (a, b) ∈ q ++ newArcs slv' s1 s2 ∨
                        ReviseOk slv'.overlaps slv'.domains a b := by
                      intro a b hab
                      rw [hov] at hab
                      by_cases hbs1 : b = s1
                      · replace hbs1 := hbs1.symm
                        subst hbs1
                        by_cases has1 : a = s1
                        · replace has1 := has1.symm
                          subst has1
                          rw [hirr s1] at hab
                          cases hab
                        · by_cases has2 : a = s2
                          · replace has2 := has2.symm
                            subst has2
                            rcases hq s2 s1 hab with hin | hok
                            · rcases List.mem_cons.mp hin with heq | hin'
                              · obtain ⟨ha, hb⟩ := Prod.mk.injEq .. ▸ heq
                                exact absurd hb hne12
                              · exact Or.inl (List.mem_append_left _ hin')
                            · right
                              intro i' j' hl' w2 hw2
                              rw [hov] at hl'
                              have hl2 : lookupOv slv.overlaps s2 s1 = some (i2, i1) :=
                                hsym s1 s2 i1 i2 hl
                              rw [hl2] at hl'
                              obtain ⟨hi', hj'⟩ := Prod.mk.injEq .. ▸ Option.some.inj hl'
                              subst hi'; subst hj'
                              have hw2' : w2 ∈ slv.domains s2 := by
                                rw [← hdt s2 (fun h => hne12 h.symm)]
                                exact hw2
                              obtain ⟨w1, hw1, heq⟩ := hok i2 i1 hl2 w2 hw2'
                              refine ⟨w1, ?_, heq⟩
                              rw [hd1]
                              unfold reviseFilter
                              rw [List.mem_filter]
                              refine ⟨hw1, ?_⟩
                              rw [List.any_eq_true]
                              exact ⟨w2, hw2', by simp [heq.symm]⟩
                          · left
                            apply List.mem_append_right
                            unfold newArcs
                            rw [List.mem_filterMap]
                            refine ⟨a, by rw [hslots]; exact (hk a s1 hab).1, ?_⟩
                            rw [if_pos ⟨fun h => has1 h, fun h => has2 h, by rw [hov]; exact hab⟩]
                      · rcases hq a b hab with hin | hok
                        · rcases List.mem_cons.mp hin with heq | hin'
                          · obtain ⟨ha, hb⟩ := Prod.mk.injEq .. ▸ heq
                            replace ha := ha.symm
                            replace hb := hb.symm
                            subst ha; subst hb
                            right
                            intro i' j' hl' w1 hw1
                            rw [hov, hl] at hl'
                            obtain ⟨hi', hj'⟩ := Prod.mk.injEq .. ▸ Option.some.inj hl'
                            subst hi'; subst hj'
                            rw [hd1] at hw1
                            unfold reviseFilter at hw1
                            rw [List.mem_filter] at hw1
                            obtain ⟨-, hany⟩ := hw1
                            rw [List.any_eq_true] at hany
                            obtain ⟨w2, hw2, heq⟩ := hany
                            refine ⟨w2, ?_, by simpa using heq⟩
                            rw [hdt s2 (fun h => hne12 h.symm)]
                            exact hw2
                          · exact Or.inl (List.mem_append_left _ hin')
                        · right
                          intro i' j' hl' w1 hw1
                          rw [hov] at hl'
                          have hw1' : w1 ∈ slv.domains a := by
                            by_cases has1 : a = s1
                            · subst has1; exact hsub1 w1 hw1
                            · rw [← hdt a has1]; exact hw1
                          obtain ⟨w2, hw2, heq⟩ := hok i' j' hl' w1 hw1'
                          refine ⟨w2, ?_, heq⟩
                          rw [hdt b hbs1]
                          exact hw2
                    have hres := ih slv' (q ++ newArcs slv' s1 s2) (by omega)
                      (by rw [hslots, hov]; exact hk) (by rw [hov]; exact hsym)
                      (by rw [hov]; exact hirr) hq' htrue
                    intro a b
                    rw [← hov]
                    exact hres a b

/-- C4: if `ac3()` returns `True`, the arc-consistency invariant holds on
exit: for every arc `(X, Y)` in the overlap map with indices `(i, j)` and
every word `w` remaining in `domains[X]`, some `w'` in `domains[Y]` has
`w[i] == w'[j]`.  (The hypotheses are the well-formedness facts the pipeline
guarantees of its overlap maps: keys drawn from the slot list, symmetric,
irreflexive.) -/
theorem c4_ac3_soundness (slv : Solver)
    (hk : KeysWF slv.slots slv.overlaps) (hsym : SymOv slv.overlaps)
    (hirr : IrreflOv slv.overlaps) (htrue : (ac3 slv).1 = true) :
    ∀ (a b : Slot) (i j : Nat), lookupOv slv.overlaps a b = some (i, j) →
      ∀ w ∈ (ac3 slv).2.domains a,
        ∃ w2 ∈ (ac3 slv).2.domains b, charAt w i = charAt w2 j := by
  have hac3 : ac3 slv = ac3GoF (ac3Fuel slv (slv.overlaps.map Prod.fst)) slv
      (slv.overlaps.map Prod.fst) := rfl
  have hinit : ∀ a b : Slot, (lookupOv slv.overlaps a b).isSome →
      (a, b) ∈ slv.overlaps.map Prod.fst ∨
      ReviseOk slv.overlaps slv.domains a b := by
    intro a b hab
    obtain ⟨v, hv⟩ := lookupOv_isSome_mem hab
    exact Or.inl (List.mem_map.mpr ⟨((a, b), v), hv, rfl⟩)
  rw [hac3] at htrue
  have h := ac3GoF_arc_consistent
    (ac3Fuel slv (slv.overlaps.map Prod.fst)) slv (slv.overlaps.map Prod.fst)
    le_rfl hk hsym hirr hinit htrue
  intro a b i j hl w hw
  rw [hac3] at hw ⊢
  exact h a b i j hl w hw

/-! ### Backtracking search: frame and restoration (claim C10) -/

/-- Everything of the solver state except `backtrack_count` (the only field
the search writes). -/
def SameConfig (s t : Solver) : Prop :=
  t.slots = s.slots ∧ t.overlaps = s.overlaps ∧ t.domains = s.domains ∧
  t.theme = s.theme ∧ t.themeInfluence = s.themeInfluence ∧
  t.wordsByLen = s.wordsByLen ∧ t.themeAssignment = s.themeAssignment

theorem sameConfig_refl (s : Solver) : SameConfig s s :=
  ⟨rfl, rfl, rfl, rfl, rfl, rfl, rfl⟩

theorem sameConfig_trans {s t u : Solver} (h1 : SameConfig s t)
    (h2 : SameConfig t u) : SameConfig s u := by
  obtain ⟨a1, a2, a3, a4, a5, a6, a7⟩ := h1
  obtain ⟨b1, b2, b3, b4, b5, b6, b7⟩ := h2
  exact ⟨b1.trans a1, b2.trans a2, b3.trans a3, b4.trans a4,
    b5.trans a5, b6.trans a6, b7.trans a7⟩

theorem sameConfig_bump (s : Solver) (n : Nat) :
    SameConfig s { s with backtrackCount := n } :=
  ⟨rfl, rfl, rfl, rfl, rfl, rfl, rfl⟩

theorem foldl_priLt_mem (key : Slot → Nat × Int) :
    ∀ (ys : List Slot) (y : Slot),
      ys.foldl (fun best s => if priLt (key s) (key best) then s else best) y ∈ y :: ys
  | [], y => List.mem_singleton.mpr rfl
  | z :: zs, y => by
      rw [List.foldl_cons]
      by_cases hp : priLt (key z) (key y)
      · rw [if_pos hp]
        have h := foldl_priLt_mem key zs z
        rcases List.mem_cons.mp h with h1 | h1
        · rw [h1]
          exact List.mem_cons_of_mem _ (List.mem_cons_self _ _)
        · exact List.mem_cons_of_mem _ (List.mem_cons_of_mem _ h1)
      · rw [if_neg hp]
        have h := foldl_priLt_mem key zs y
        rcases List.mem_cons.mp h with h1 | h1
        · rw [h1]
          exact List.mem_cons_self _ _
        · exact List.mem_cons_of_mem _ (List.mem_cons_of_mem _ h1)

theorem pyMin_mem {key : Slot → Nat × Int} :
    ∀ {l : List Slot} {x : Slot}, pyMin key l = some x → x ∈ l := by
  intro l x h
  cases l with
  | nil => cases h
  | cons y ys =>
      unfold pyMin at h
      obtain h := Option.some.inj h
      rw [← h]
      exact foldl_priLt_mem key ys y

theorem selectUnassignedSlot_spec {slv : Solver} {a : Assignment} {slot : Slot}
    (h : selectUnassignedSlot slv a = some slot) :
    slot ∈ slv.slots ∧ hasKey a slot = false := by
  unfold selectUnassignedSlot at h
  have hm := pyMin_mem h
  rw [List.mem_filter] at hm
  exact ⟨hm.1, by simpa using hm.2⟩

theorem hasKey_false_iff {a : Assignment} {s : Slot} :
    hasKey a s = false ↔ ∀ p ∈ a, p.1 ≠ s := by
  constructor
  · intro h p hp hps
    have ht : hasKey a s = true := by
      unfold hasKey
      rw [List.any_eq_true]
      exact ⟨p, hp, by simp [hps]⟩
    rw [h] at ht
    cases ht
  · intro h
    cases hk : hasKey a s with
    | false => rfl
    | true =>
        unfold hasKey at hk
        rw [List.any_eq_true] at hk
        obtain ⟨p, hp, hps⟩ := hk
        simp only [decide_eq_true_eq] at hps
        exact absurd hps (h p hp)

theorem aDel_aSet_unassigned {a : Assignment} {slot : Slot} {w : Word}
    (h : hasKey a slot = false) : aDel (aSet a slot w) slot = a := by
  unfold aSet
  rw [h]
  simp only [Bool.false_eq_true, if_false]
  unfold aDel
  rw [List.filter_append]
  have h1 : List.filter (fun p => decide (p.1 ≠ slot)) a = a := by
    rw [List.filter_eq_self]
    intro p hp
    simp [hasKey_false_iff.mp h p hp]
  have h2 : List.filter (fun p => decide (p.1 ≠ slot)) [(slot, w)] = [] := by
    simp [List.filter]
  rw [h1, h2, List.append_nil]

theorem hasKey_aDel (a : Assignment) (s : Slot) : hasKey (aDel a s) s = false := by
  rw [hasKey_false_iff]
  intro p hp
  unfold aDel at hp
  rw [List.mem_filter] at hp
  simpa using hp.2

/-- The frame-and-restoration contract of one `backtrack`-style call: the
solver state changes only in `backtrack_count`; a `None` return leaves the
assignment dict exactly as at entry; a solution return hands back the very
dict the call mutated. -/
def BtSpec (slv : Solver) (a : Assignment)
    (out : Option (Option Assignment × Assignment × Solver)) : Prop :=
  match out with
  | none => True
  | some (res, a2, slv2) =>
      SameConfig slv slv2 ∧ (res = none → a2 = a) ∧ ∀ r, res = some r → r = a2

theorem btSpec_none {slv : Solver} {a : Assignment} : BtSpec slv a none := trivial

theorem btSpec_mk {slv slv2 : Solver} {a a2 : Assignment} {res : Option Assignment}
    (h1 : SameConfig slv slv2) (h2 : res = none → a2 = a)
    (h3 : ∀ r, res = some r → r = a2) : BtSpec slv a (some (res, a2, slv2)) :=
  ⟨h1, h2, h3⟩

theorem btSpec_adapt {s t : Solver} {a b : Assignment}
    {out : Option (Option Assignment × Assignment × Solver)}
    (hcfg : SameConfig s t) (hb : b = a) (h : BtSpec t b out) : BtSpec s a out := by
  cases out with
  | none => exact btSpec_none
  | some u =>
      obtain ⟨res, a2, slv2⟩ := u
      obtain ⟨h1, h2, h3⟩ := h
      exact btSpec_mk (sameConfig_trans hcfg h1) (fun hn => (h2 hn).trans hb) h3

/-- Frame and restoration through the word loop of `backtrack`. -/
theorem tryWords_frame
    (bt : Solver → Assignment → Option (Option Assignment × Assignment × Solver))
    (hbt : ∀ slv a, BtSpec slv a (bt slv a)) :
    ∀ (ws : List Word) (slv : Solver) (slot : Slot) (a : Assignment),
      hasKey a slot = false → BtSpec slv a (tryWords bt slot slv ws a)
  | [], slv, slot, a, _ =>
      btSpec_mk (sameConfig_refl slv) (fun _ => rfl) (fun r hr => Option.noConfusion hr)
  | w :: rest, slv, slot, a, hkey => by
      unfold tryWords
      by_cases hc : isConsistent slv slot w a
      · rw [if_pos hc]
        have h1 := hbt slv (aSet a slot w)
        cases hb : bt slv (aSet a slot w) with
        | none => exact btSpec_none
        | some t =>
            obtain ⟨res1, a2, slv2⟩ := t
            rw [hb] at h1
            obtain ⟨hcfg, hrest, hsol⟩ := h1
            cases res1 with
            | some sol => exact btSpec_mk hcfg (fun h => Option.noConfusion h) hsol
            | none =>
                have ha2 : a2 = aSet a slot w := hrest rfl
                have hk2 : hasKey (aDel a2 slot) slot = false := by
                  rw [ha2]
                  exact hasKey_aDel (aSet a slot w) slot
                have h2 := tryWords_frame bt hbt rest slv2 slot (aDel a2 slot) hk2
                exact btSpec_adapt hcfg
                  (by rw [ha2]; exact aDel_aSet_unassigned hkey) h2
      · rw [if_neg hc]
        exact tryWords_frame bt hbt rest slv slot a hkey

/-- Frame and restoration for `backtrack`: (claim C10's per-call facts). -/
theorem backtrack_frame :
    ∀ (fuel : Nat) (slv : Solver) (a : Assignment), BtSpec slv a (backtrack fuel slv a)
  | 0, _, _ => btSpec_none
  | fuel + 1, slv, a => by
      simp only [backtrack]
      by_cases hlen : a.length = slv.slots.length
      · rw [if_pos hlen]
        exact btSpec_mk (sameConfig_bump slv _) (fun h => Option.noConfusion h)
          (fun r hr => (Option.some.inj hr).symm)
      · rw [if_neg hlen]
        cases hsel : selectUnassignedSlot
            { slv with backtrackCount := slv.backtrackCount + 1 } a with
        | none =>
            exact btSpec_mk (sameConfig_bump slv _) (fun _ => rfl)
              (fun r hr => Option.noConfusion hr)
        | some slot =>
            have hspec := selectUnassignedSlot_spec hsel
            have h := tryWords_frame (backtrack fuel)
              (fun slv2 a2 => backtrack_frame fuel slv2 a2)
              (orderDomainValues { slv with backtrackCount := slv.backtrackCount + 1 } slot a)
              { slv with backtrackCount := slv.backtrackCount + 1 } slot a hspec.2
            exact btSpec_adapt (sameConfig_bump slv _) rfl h

/-- The value `solve` returns on the AC-3 failure path. -/
theorem solve_ac3_fail {slv slv1 : Solver} (fuel : Nat)
    (hac : ac3 slv = (false, slv1)) :
    solve slv fuel = some (none, slv1,
      [s!"Starting solve with {slv.slots.length} slots...", "Running AC-3...",
       "AC-3 failed - puzzle has no solution"]) := by
  unfold solve
  rw [hac]
  rfl

/-- `solve` marks exhausted fuel when the search does. -/
theorem solve_fuel_out {slv slv1 : Solver} {fuel : Nat}
    (hac : ac3 slv = (true, slv1))
    (hbt : backtrack fuel { slv1 with backtrackCount := 0 } [] = none) :
    solve slv fuel = none := by
  unfold solve
  rw [hac]
  simp only [hbt]

/-- The value `solve` returns when backtracking exhausts all branches. -/
theorem solve_exhausted {slv slv1 slv3 : Solver} {fuel : Nat} {a2 : Assignment}
    (hac : ac3 slv = (true, slv1))
    (hbt : backtrack fuel { slv1 with backtrackCount := 0 } [] = some (none, a2, slv3)) :
    solve slv fuel = some (none, slv3,
      [s!"Starting solve with {slv.slots.length} slots...", "Running AC-3...",
       "AC-3 complete. Starting backtracking search...",
       s!"✗ No solution found after {slv3.backtrackCount} backtracks"]) := by
  unfold solve
  rw [hac]
  simp only [hbt]
  rfl

/-- The value `solve` returns when backtracking finds a (non-empty)
solution. -/
theorem solve_found {slv slv1 slv3 : Solver} {fuel : Nat} {a2 r : Assignment}
    (hac : ac3 slv = (true, slv1))
    (hbt : backtrack fuel { slv1 with backtrackCount := 0 } [] = some (some r, a2, slv3))
    (hne : r.isEmpty = false) :
    solve slv fuel = some (some r, slv3,
      [s!"Starting solve with {slv.slots.length} slots...", "Running AC-3...",
       "AC-3 complete. Starting backtracking search...",
       s!"✓ Solution found after {slv3.backtrackCount} backtracks"]) := by
  unfold solve
  rw [hac]
  simp only [hbt, hne]
  rfl

/-- `solve` returns exactly what `backtrack` returned (`None` on both
failure paths, the assignment on success), with the final state. -/
theorem solve_inv {slv : Solver} {fuel : Nat} {res : Option Assignment}
    {slv3 : Solver} {log : List String}
    (h : solve slv fuel = some (res, slv3, log)) :
    ((ac3 slv).1 = false ∧ res = none ∧ slv3 = (ac3 slv).2) ∨
    ((ac3 slv).1 = true ∧ ∃ a2,
      backtrack fuel { (ac3 slv).2 with backtrackCount := 0 } [] = some (res, a2, slv3)) := by
  cases hac : ac3 slv with
  | mk ok slv1 =>
      cases ok with
      | false =>
          rw [solve_ac3_fail fuel hac] at h
          obtain h2 := Option.some.inj h
          have h3 : none = res := congrArg Prod.fst h2
          have h4 : slv1 = slv3 := congrArg (fun t => t.2.1) h2
          exact Or.inl ⟨rfl, h3.symm, h4.symm⟩
      | true =>
          cases hbt : backtrack fuel { slv1 with backtrackCount := 0 } [] with
          | none => rw [solve_fuel_out hac hbt] at h; cases h
          | some t =>
              obtain ⟨res1, a2, slv4⟩ := t
              have hout : ∃ log2, solve slv fuel = some (res1, slv4, log2) := by
                cases res1 with
                | none => exact ⟨_, solve_exhausted hac hbt⟩
                | some r =>
                    cases hne : r.isEmpty with
                    | false => exact ⟨_, solve_found hac hbt hne⟩
                    | true =>
                        exact ⟨_, by unfold solve; rw [hac]; simp only [hbt, hne]; rfl⟩
              obtain ⟨log2, hsol⟩ := hout
              rw [hsol] at h
              obtain h2 := Option.some.inj h
              have h3 : res1 = res := congrArg Prod.fst h2
              have h4 : slv4 = slv3 := congrArg (fun t => t.2.1) h2
              exact Or.inr ⟨rfl, a2, h4 ▸ h3 ▸ rfl⟩

/-- C10: the backtracking search never mutates the solver's domain store —
after `solve()` returns, `self.domains` is exactly its post-AC-3 value — and
every `backtrack(assignment)` call that returns `None` leaves the assignment
dict exactly as it was at entry (each speculative entry added inside the
call is deleted before the call returns), so sibling branches never observe
state from a failed branch. -/
theorem c10_search_frame (fuel : Nat) (slv : Solver) (a : Assignment) :
    (match backtrack fuel slv a with
     | none => True
     | some (res, a2, slv2) =>
         slv2.domains = slv.domains ∧ (res = none → a2 = a)) ∧
    (match solve slv fuel with
     | none => True
     | some (_, slv3, _) => slv3.domains = (ac3 slv).2.domains) := by
  constructor
  · have h := backtrack_frame fuel slv a
    cases hb : backtrack fuel slv a with
    | none => exact trivial
    | some t =>
        obtain ⟨res, a2, slv2⟩ := t
        rw [hb] at h
        exact ⟨h.1.2.2.1, h.2.1⟩
  · cases hs : solve slv fuel with
    | none => exact trivial
    | some t =>
        obtain ⟨res, slv3, log⟩ := t
        rcases solve_inv hs with ⟨-, -, h3⟩ | ⟨-, a2, hbt⟩
        · rw [h3]
        · have h := backtrack_frame fuel { (ac3 slv).2 with backtrackCount := 0 } []
          rw [hbt] at h
          exact h.1.2.2.1

/-! ### Backtracking search soundness (claims C1, C7) -/

theorem hasKey_true_iff {a : Assignment} {s : Slot} :
    hasKey a s = true ↔ ∃ p ∈ a, p.1 = s := by
  unfold hasKey
  rw [List.any_eq_true]
  constructor
  · rintro ⟨p, hp, hps⟩
    refine ⟨p, hp, ?_⟩
    simpa using hps
  · rintro ⟨p, hp, hps⟩
    refine ⟨p, hp, ?_⟩
    simp [hps]

theorem aGet_append_left {a l : Assignment} {s : Slot} (h : hasKey a s = true) :
    aGet (a ++ l) s = aGet a s := by
  unfold aGet
  rw [List.find?_append]
  cases hf : a.find? fun p => decide (p.1 = s) with
  | none =>
      rw [List.find?_eq_none] at hf
      obtain ⟨p, hp, hps⟩ := hasKey_true_iff.mp h
      exact absurd (by simp [hps]) (hf p hp)
  | some p => rfl

theorem aGet_append_fresh {a : Assignment} {s : Slot} {w : Word}
    (h : hasKey a s = false) : aGet (a ++ [(s, w)]) s = w := by
  unfold aGet
  rw [List.find?_append]
  have hf : (a.find? fun p => decide (p.1 = s)) = none := by
    rw [List.find?_eq_none]
    intro p hp
    simp [hasKey_false_iff.mp h p hp]
  rw [hf]
  simp [List.find?]

theorem aSet_fresh {a : Assignment} {s : Slot} (w : Word)
    (h : hasKey a s = false) : aSet a s w = a ++ [(s, w)] := by
  unfold aSet
  rw [h]
  simp

theorem hasKey_append {a l : Assignment} {s : Slot} :
    hasKey (a ++ l) s = (hasKey a s || hasKey l s) := by
  unfold hasKey
  rw [List.any_append]

theorem hasKey_singleton {s t : Slot} {w : Word} :
    hasKey [(t, w)] s = decide (t = s) := by
  unfold hasKey
  rw [List.any_cons, List.any_nil, Bool.or_false]

theorem aGet_mem {a : Assignment} {s : Slot} (h : hasKey a s = true) :
    (s, aGet a s) ∈ a := by
  unfold aGet
  cases hf : a.find? fun p => decide (p.1 = s) with
  | none =>
      rw [List.find?_eq_none] at hf
      obtain ⟨p, hp, hps⟩ := hasKey_true_iff.mp h
      exact absurd (by simp [hps]) (hf p hp)
  | some p =>
      have hp1 : p.1 = s := by simpa using List.find?_some hf
      have hmem := List.mem_of_find?_eq_some hf
      have : ((s, p.2) : Slot × Word) = p := by rw [← hp1]
      simpa [this] using hmem

/-- Keys of the assignment are distinct and drawn from the slot list. -/
def AKeysWF (slots : List Slot) (a : Assignment) : Prop :=
  (a.map Prod.fst).Nodup ∧ ∀ p ∈ a, p.1 ∈ slots

/-- Every assigned word comes from the assigned slot's domain. -/
def AOk (ds : Domains) (a : Assignment) : Prop := ∀ p ∈ a, p.2 ∈ ds p.1

/-- The assignment satisfies every overlap constraint among its keys. -/
def ACons (ov : OvMap) (a : Assignment) : Prop :=
  ∀ A B i j, lookupOv ov A B = some (i, j) →
    hasKey a A = true → hasKey a B = true →
    charAt (aGet a A) i = charAt (aGet a B) j

theorem AKeysWF_extend {slots : List Slot} {a : Assignment} {slot : Slot} {w : Word}
    (h : AKeysWF slots a) (hkey : hasKey a slot = false) (hslot : slot ∈ slots) :
    AKeysWF slots (a ++ [(slot, w)]) := by
  constructor
  · rw [List.map_append, List.nodup_append]
    refine ⟨h.1, List.nodup_singleton _, ?_⟩
    intro x hx
    rw [List.mem_map] at hx
    obtain ⟨p, hp, hpx⟩ := hx
    simp only [List.map_cons, List.map_nil, List.mem_singleton]
    rw [← hpx]
    exact hasKey_false_iff.mp hkey p hp
  · intro p hp
    rcases List.mem_append.mp hp with h1 | h1
    · exact h.2 p h1
    · rw [List.mem_singleton] at h1
      rw [h1]
      exact hslot

theorem AOk_extend {ds : Domains} {a : Assignment} {slot : Slot} {w : Word}
    (h : AOk ds a) (hw : w ∈ ds slot) : AOk ds (a ++ [(slot, w)]) := by
  intro p hp
  rcases List.mem_append.mp hp with h1 | h1
  · exact h p h1
  · rw [List.mem_singleton] at h1
    rw [h1]
    exact hw

theorem isConsistent_spec {slv : Solver} {slot : Slot} {w : Word} {a : Assignment}
    (h : isConsistent slv slot w a = true) :
    ∀ B ∈ slv.slots, hasKey a B = true →
      ∀ i j, lookupOv slv.overlaps slot B = some (i, j) →
        charAt w i = charAt (aGet a B) j := by
  intro B hB hkey i j hl
  unfold isConsistent at h
  rw [List.all_eq_true] at h
  have hb := h B hB
  rw [hkey] at hb
  simp only [if_true] at hb
  rw [hl] at hb
  simpa using hb

theorem ACons_extend {ov : OvMap} {slots : List Slot} {slv : Solver} {slot : Slot}
    {w : Word} {a : Assignment}
    (hsym : SymOv ov) (hirr : IrreflOv ov)
    (hovs : slv.overlaps = ov) (hsls : slv.slots = slots)
    (hkey : hasKey a slot = false)
    (hkeys : ∀ p ∈ a, p.1 ∈ slots)
    (hcons : isConsistent slv slot w a = true)
    (hac : ACons ov a) :
    ACons ov (a ++ [(slot, w)]) := by
  have hmemslots : ∀ B : Slot, hasKey a B = true → B ∈ slv.slots := by
    intro B hB
    obtain ⟨p, hp, hps⟩ := hasKey_true_iff.mp hB
    rw [hsls, ← hps]
    exact hkeys p hp
  intro A B i j hl hA hB
  rw [hasKey_append] at hA hB
  have hA' : hasKey a A = true ∨ A = slot := by
    rcases Bool.or_eq_true .. ▸ hA with h1 | h1
    · exact Or.inl h1
    · rw [hasKey_singleton] at h1
      have h2 : slot = A := by simpa using h1
      exact Or.inr h2.symm
  have hB' : hasKey a B = true ∨ B = slot := by
    rcases Bool.or_eq_true .. ▸ hB with h1 | h1
    · exact Or.inl h1
    · rw [hasKey_singleton] at h1
      have h2 : slot = B := by simpa using h1
      exact Or.inr h2.symm
  rcases hA' with hAo | hAs
  · rcases hB' with hBo | hBs
    · rw [aGet_append_left hAo, aGet_append_left hBo]
      exact hac A B i j hl hAo hBo
    · replace hBs := hBs.symm
      subst hBs
      rw [aGet_append_left hAo, aGet_append_fresh hkey]
      have hl2 : lookupOv ov slot A = some (j, i) := hsym A slot i j hl
      have := isConsistent_spec hcons A (hmemslots A hAo) hAo j i (by rw [hovs]; exact hl2)
      exact this.symm
  · replace hAs := hAs.symm
    subst hAs
    rcases hB' with hBo | hBs
    · rw [aGet_append_fresh hkey, aGet_append_left hBo]
      exact isConsistent_spec hcons B (hmemslots B hBo) hBo i j (by rw [hovs]; exact hl)
    · replace hBs := hBs.symm
      subst hBs
      rw [hirr slot] at hl
      cases hl

theorem mem_stableInsert {κ : Type} [LinearOrder κ] {key : Word → κ} {x y : Word} :
    ∀ {l : List Word}, y ∈ stableInsert key x l ↔ y = x ∨ y ∈ l
  | [] => by simp [stableInsert]
  | z :: zs => by
      unfold stableInsert
      split
      · rw [List.mem_cons, mem_stableInsert, List.mem_cons]
        tauto
      · simp [List.mem_cons]

theorem mem_stableSort {κ : Type} [LinearOrder κ] {key : Word → κ} {y : Word} :
    ∀ {l : List Word}, y ∈ stableSort key l ↔ y ∈ l
  | [] => Iff.rfl
  | x :: xs => by
      unfold stableSort
      rw [mem_stableInsert, List.mem_cons, mem_stableSort]

theorem orderDomainValues_spec {slv : Solver} {slot : Slot} {a : Assignment} {w : Word}
    (h : w ∈ orderDomainValues slv slot a) :
    w ∈ slv.domains slot ∧ isConsistent slv slot w a = true := by
  unfold orderDomainValues at h
  rw [mem_stableSort, List.mem_filter] at h
  exact h

/-- The soundness contract of one `backtrack`-style call's result: any
returned solution is a well-keyed, domain-respecting, constraint-satisfying
assignment covering as many entries as there are slots. -/
def BtSound (ov : OvMap) (slots : List Slot) (ds : Domains)
    (out : Option (Option Assignment × Assignment × Solver)) : Prop :=
  ∀ res a2 slv2, out = some (res, a2, slv2) →
    ∀ r, res = some r →
      AKeysWF slots r ∧ AOk ds r ∧ ACons ov r ∧ r.length = slots.length

theorem tryWords_sound (ov : OvMap) (slots : List Slot) (ds : Domains)
    (hsym : SymOv ov) (hirr : IrreflOv ov)
    (bt : Solver → Assignment → Option (Option Assignment × Assignment × Solver))
    (hbtF : ∀ slv a, BtSpec slv a (bt slv a))
    (hbtS : ∀ slv a, slv.overlaps = ov → slv.slots = slots → slv.domains = ds →
      AKeysWF slots a → AOk ds a → ACons ov a → BtSound ov slots ds (bt slv a)) :
    ∀ (ws : List Word) (slv : Solver) (slot : Slot) (a : Assignment),
      slv.overlaps = ov → slv.slots = slots → slv.domains = ds →
      slot ∈ slots → hasKey a slot = false →
      (∀ w ∈ ws, w ∈ ds slot) →
      AKeysWF slots a → AOk ds a → ACons ov a →
      BtSound ov slots ds (tryWords bt slot slv ws a)
  | [], slv, slot, a, _, _, _, _, _, _, _, _, _ => by
      intro res a2 slv2 heq r hres
      obtain h2 := Option.some.inj heq
      have h3 : none = res := congrArg Prod.fst h2
      rw [← h3] at hres
      cases hres
  | w :: rest, slv, slot, a, hovs, hsls, hds, hslot, hkey, hws, hwf, hok, hac => by
      unfold tryWords
      by_cases hc : isConsistent slv slot w a
      · rw [if_pos hc]
        have hset := aSet_fresh w hkey
        have hwf2 : AKeysWF slots (aSet a slot w) := by
          rw [hset]
          exact AKeysWF_extend hwf hkey hslot
        have hok2 : AOk ds (aSet a slot w) := by
          rw [hset]
          exact AOk_extend hok (hws w (List.mem_cons_self _ _))
        have hac2 : ACons ov (aSet a slot w) := by
          rw [hset]
          exact ACons_extend hsym hirr hovs hsls hkey hwf.2 hc hac
        have h1 := hbtF slv (aSet a slot w)
        cases hb : bt slv (aSet a slot w) with
        | none =>
            intro res a2 slv2 heq
            cases heq
        | some t =>
            obtain ⟨res1, a2, slv2⟩ := t
            rw [hb] at h1
            obtain ⟨hcfg, hrest, hsol⟩ := h1
            cases res1 with
            | some sol =>
                intro res a2' slv2' heq r hres
                obtain h2 := Option.some.inj heq
                have h3 : some sol = res := congrArg Prod.fst h2
                exact hbtS slv (aSet a slot w) hovs hsls hds hwf2 hok2 hac2
                  (some sol) a2 slv2 hb r (by rw [h3, hres])
            | none =>
                have ha2 : a2 = aSet a slot w := hrest rfl
                have hdel : aDel a2 slot = a := by
                  rw [ha2]
                  exact aDel_aSet_unassigned hkey
                have ih := tryWords_sound ov slots ds hsym hirr bt hbtF hbtS rest slv2 slot
                  (aDel a2 slot)
                  (hcfg.2.1.trans hovs) (hcfg.1.trans hsls) (hcfg.2.2.1.trans hds)
                  hslot (by rw [hdel]; exact hkey)
                  (fun x hx => hws x (List.mem_cons_of_mem _ hx))
                  (by rw [hdel]; exact hwf) (by rw [hdel]; exact hok)
                  (by rw [hdel]; exact hac)
                exact ih
      · rw [if_neg hc]
        exact tryWords_sound ov slots ds hsym hirr bt hbtF hbtS rest slv slot a
          hovs hsls hds hslot hkey
          (fun x hx => hws x (List.mem_cons_of_mem _ hx)) hwf hok hac

theorem backtrack_sound (ov : OvMap) (slots : List Slot) (ds : Domains)
    (hsym : SymOv ov) (hirr : IrreflOv ov) :
    ∀ (fuel : Nat) (slv : Solver) (a : Assignment),
      slv.overlaps = ov → slv.slots = slots → slv.domains = ds →
      AKeysWF slots a → AOk ds a → ACons ov a →
      BtSound ov slots ds (backtrack fuel slv a)
  | 0, slv, a, _, _, _, _, _, _ => by
      intro res a2 slv2 heq
      cases heq
  | fuel + 1, slv, a, hovs, hsls, hds, hwf, hok, hac => by
      simp only [backtrack]
      by_cases hlen : a.length = slv.slots.length
      · rw [if_pos hlen]
        intro res a2 slv2 heq r hres
        obtain h2 := Option.some.inj heq
        have h3 : some a = res := congrArg Prod.fst h2
        rw [← h3] at hres
        obtain h4 := Option.some.inj hres
        rw [← h4]
        exact ⟨hwf, hok, hac, by rw [hlen, hsls]⟩
      · rw [if_neg hlen]
        cases hsel : selectUnassignedSlot
            { slv with backtrackCount := slv.backtrackCount + 1 } a with
        | none =>
            intro res a2 slv2 heq r hres
            obtain h2 := Option.some.inj heq
            have h3 : none = res := congrArg Prod.fst h2
            rw [← h3] at hres
            cases hres
        | some slot =>
            have hspec := selectUnassignedSlot_spec hsel
            have hws : ∀ x ∈ orderDomainValues
                { slv with backtrackCount := slv.backtrackCount + 1 } slot a,
                x ∈ ds slot := by
              intro x hx
              have := (orderDomainValues_spec hx).1
              rw [← hds]
              exact this
            exact tryWords_sound ov slots ds hsym hirr (backtrack fuel)
              (fun slv2 a2 => backtrack_frame fuel slv2 a2)
              (fun slv2 a2 h1 h2 h3 h4 h5 h6 =>
                backtrack_sound ov slots ds hsym hirr fuel slv2 a2 h1 h2 h3 h4 h5 h6)
              (orderDomainValues { slv with backtrackCount := slv.backtrackCount + 1 } slot a)
              { slv with backtrackCount := slv.backtrackCount + 1 } slot a
              hovs hsls hds (by rw [← hsls]; exact hspec.1) hspec.2 hws hwf hok hac

theorem ac3GoF_subset :
    ∀ (fuel : Nat) (slv : Solver) (queue : List (Slot × Slot)),
      (ac3GoF fuel slv queue).2.slots = slv.slots ∧
      (ac3GoF fuel slv queue).2.overlaps = slv.overlaps ∧
      ∀ t w, w ∈ (ac3GoF fuel slv queue).2.domains t → w ∈ slv.domains t := by
  intro fuel
  induction fuel with
  | zero =>
      intro slv queue
      cases queue with
      | nil => exact ⟨rfl, rfl, fun t w h => h⟩
      | cons arc q => exact ⟨rfl, rfl, fun t w h => h⟩
  | succ fuel ih =>
      intro slv queue
      cases queue with
      | nil => exact ⟨rfl, rfl, fun t w h => h⟩
      | cons arc q =>
          obtain ⟨s1, s2⟩ := arc
          cases hrev : revise slv s1 s2 with
          | mk b slv' =>
              cases b with
              | false =>
                  have hstep : ac3GoF (fuel + 1) slv ((s1, s2) :: q) = ac3GoF fuel slv q := by
                    simp only [ac3GoF]
                    rw [hrev]
                  rw [hstep]
                  exact ih slv q
              | true =>
                  obtain ⟨hslots, hov, -, -, hsome⟩ := revise_true_spec hrev
                  obtain ⟨v, hl⟩ := Option.isSome_iff_exists.mp hsome
                  obtain ⟨i1, i2⟩ := v
                  obtain ⟨hd1, hdt⟩ := revise_true_domains hl hrev
                  have hsub : ∀ t w, w ∈ slv'.domains t → w ∈ slv.domains t := by
                    intro t w hw
                    by_cases ht : t = s1
                    · subst ht
                      rw [hd1] at hw
                      unfold reviseFilter at hw
                      exact (List.mem_filter.mp hw).1
                    · rw [hdt t ht] at hw
                      exact hw
                  by_cases hemp : (slv'.domains s1).isEmpty
                  · have hstep : ac3GoF (fuel + 1) slv ((s1, s2) :: q) = (false, slv') := by
                      simp only [ac3GoF]
                      rw [hrev]
                      simp [hemp]
                    rw [hstep]
                    exact ⟨hslots, hov, hsub⟩
                  · have hstep : ac3GoF (fuel + 1) slv ((s1, s2) :: q) =
                        ac3GoF fuel slv' (q ++ newArcs slv' s1 s2) := by
                      simp only [ac3GoF]
                      rw [hrev]
                      simp [hemp]
                    rw [hstep]
                    obtain ⟨c1, c2, c3⟩ := ih slv' (q ++ newArcs slv' s1 s2)
                    exact ⟨c1.trans hslots, c2.trans hov,
                      fun t w h => hsub t w (c3 t w h)⟩

theorem ac3_state (slv : Solver) :
    (ac3 slv).2.slots = slv.slots ∧ (ac3 slv).2.overlaps = slv.overlaps ∧
    ∀ t w, w ∈ (ac3 slv).2.domains t → w ∈ slv.domains t :=
  ac3GoF_subset _ slv _

/-- Every domain value of a slot in the list has that slot's length. -/
def DomLenOk (slots : List Slot) (ds : Domains) : Prop :=
  ∀ s ∈ slots, ∀ w ∈ ds s, w.length = s.length

theorem domLenOk_initDomains (slots : List Slot) (words : List Word) :
    DomLenOk slots (initializeDomains slots (wordsByLength words)) := by
  intro s hs w hw
  unfold initializeDomains at hw
  rw [if_pos hs] at hw
  unfold wordsByLength at hw
  rw [List.mem_dedup, List.mem_filter] at hw
  simpa using hw.2

theorem foldl_mem_mono {α : Type} {step : Domains → α → Domains}
    (hstep : ∀ d o t x, x ∈ step d o t → x ∈ d t) :
    ∀ (l : List α) (d : Domains) (t : Slot) (x : Word),
      x ∈ (l.foldl step d) t → x ∈ d t
  | [], _, _, _, h => h
  | o :: l, d, t, x, h => hstep _ _ _ _ (foldl_mem_mono hstep l (step d o) t x h)

theorem applyOnePin_mem {slots : List Slot} {ov : OvMap} {ta : List (Slot × Word)}
    {slot : Slot} {w : Word} {ds : Domains} {t : Slot} {x : Word}
    (h : x ∈ applyOnePin slots ov ta slot w ds t) : x ∈ updateD ds slot [w] t := by
  unfold applyOnePin at h
  refine foldl_mem_mono ?_ slots (updateD ds slot [w]) t x h
  intro d o u y hy
  by_cases hko : hasKey ta o
  · rw [if_pos hko] at hy
    exact hy
  · rw [if_neg hko] at hy
    cases hl : lookupOv ov slot o with
    | none => rw [hl] at hy; exact hy
    | some v =>
        obtain ⟨i1, i2⟩ := v
        rw [hl] at hy
        simp only [updateD] at hy
        by_cases hu : u = o
        · rw [if_pos hu] at hy
          rw [hu]
          exact (List.mem_filter.mp hy).1
        · rw [if_neg hu] at hy
          exact hy

theorem domLenOk_applyTheme {slots : List Slot} {ov : OvMap} {ta : List (Slot × Word)} :
    ∀ (pins : List (Slot × Word)) (ds : Domains),
      (∀ p ∈ pins, (p.2 : Word).length = p.1.length) → DomLenOk slots ds →
      DomLenOk slots (applyThemeAssignment slots ov ta pins ds)
  | [], _, _, hd => hd
  | (slot, w) :: rest, ds, hp, hd => by
      unfold applyThemeAssignment
      refine domLenOk_applyTheme rest _ (fun p hpp => hp p (List.mem_cons_of_mem _ hpp)) ?_
      intro s hs x hx
      have hx2 := applyOnePin_mem hx
      unfold updateD at hx2
      by_cases hss : s = slot
      · rw [if_pos hss] at hx2
        rw [List.mem_singleton] at hx2
        rw [hx2, hss]
        exact hp (slot, w) (List.mem_cons_self _ _)
      · rw [if_neg hss] at hx2
        exact hd s hs x hx2

theorem domLenOk_mkSolver (slots : List Slot) (words : List Word) (ov : OvMap)
    (theme : Option (Word → ℚ)) (pins : List (Slot × Word)) (inf : ℚ)
    (hp : ∀ p ∈ pins, (p.2 : Word).length = p.1.length) :
    DomLenOk slots (mkSolver slots words ov theme pins inf).domains :=
  domLenOk_applyTheme pins _ hp (domLenOk_initDomains slots words)

theorem keys_cover {slots : List Slot} {r : Assignment} (hnd : slots.Nodup)
    (hkeys : (r.map Prod.fst).Nodup) (hsub : ∀ p ∈ r, p.1 ∈ slots)
    (hlen : r.length = slots.length) : ∀ s ∈ slots, hasKey r s = true := by
  intro s hs
  have h1 : (r.map Prod.fst).toFinset.card = slots.length := by
    rw [List.toFinset_card_of_nodup hkeys, List.length_map, hlen]
  have hsub2 : (r.map Prod.fst).toFinset ⊆ slots.toFinset := by
    intro x hx
    rw [List.mem_toFinset] at hx ⊢
    rw [List.mem_map] at hx
    obtain ⟨p, hp, hpx⟩ := hx
    rw [← hpx]
    exact hsub p hp
  have h2 : slots.toFinset.card = slots.length := List.toFinset_card_of_nodup hnd
  have heq : (r.map Prod.fst).toFinset = slots.toFinset :=
    Finset.eq_of_subset_of_card_le hsub2 (by rw [h1, h2])
  have hsmem : s ∈ (r.map Prod.fst).toFinset := by
    rw [heq, List.mem_toFinset]
    exact hs
  rw [List.mem_toFinset, List.mem_map] at hsmem
  obtain ⟨p, hp, hps⟩ := hsmem
  rw [hasKey_true_iff]
  exact ⟨p, hp, hps⟩

/-- C1: whenever `solve()` returns a non-`None` result on a well-formed
configuration, that result is a complete assignment — every slot of the
solver's slot list is mapped to a word — every overlapping pair agrees at the
shared cell (`assignment[A][i] == assignment[B][j]` for each arc
`(A, B) ↦ (i, j)`), and every assigned word's length equals its slot's
length; no partial or inconsistent assignment is ever returned.  (The
hypotheses state the pipeline's well-formedness: distinct slots, overlap keys
drawn from the slot list, a symmetric irreflexive overlap map, and pinned
theme words of matching length.) -/
theorem c1_solve_sound (slots : List Slot) (words : List Word) (ov : OvMap)
    (theme : Option (Word → ℚ)) (pins : List (Slot × Word)) (inf : ℚ)
    (fuel : Nat) (r : Assignment) (slv2 : Solver) (log : List String)
    (hnd : slots.Nodup)
    (hk : KeysWF slots ov) (hsym : SymOv ov) (hirr : IrreflOv ov)
    (hpins : ∀ p ∈ pins, (p.2 : Word).length = p.1.length)
    (hr : solve (mkSolver slots words ov theme pins inf) fuel = some (some r, slv2, log)) :
    (∀ s ∈ slots, hasKey r s = true) ∧
    (∀ A B i j, lookupOv ov A B = some (i, j) →
      charAt (aGet r A) i = charAt (aGet r B) j) ∧
    (∀ p ∈ r, (p.2 : Word).length = p.1.length) := by
  rcases solve_inv hr with ⟨-, hres, -⟩ | ⟨-, a2, hbt⟩
  · cases hres
  · have hst := ac3_state (mkSolver slots words ov theme pins inf)
    have hsound := backtrack_sound ov slots
      (ac3 (mkSolver slots words ov theme pins inf)).2.domains hsym hirr fuel
      { (ac3 (mkSolver slots words ov theme pins inf)).2 with backtrackCount := 0 } []
      hst.2.1 hst.1 rfl
      ⟨List.nodup_nil, fun p hp => absurd hp (List.not_mem_nil p)⟩
      (fun p hp => absurd hp (List.not_mem_nil p))
      (fun A B i j _ hA _ => by rw [hasKey] at hA; cases hA)
      (some r) a2 slv2 hbt r rfl
    obtain ⟨hwf, hok, hac, hlen⟩ := hsound
    have hcover := keys_cover hnd hwf.1 hwf.2 hlen
    refine ⟨hcover, ?_, ?_⟩
    · intro A B i j hl
      have hA := hcover A (hk A B (by simp [hl])).1
      have hB := hcover B (hk A B (by simp [hl])).2
      exact hac A B i j hl hA hB
    · intro p hp
      have hmem := hok p hp
      have hmem2 := hst.2.2 p.1 p.2 hmem
      exact domLenOk_mkSolver slots words ov theme pins inf hpins p.1 (hwf.2 p hp) p.2 hmem2

/-! ### Theme pinning (claim C7) -/

/-- One step of `_apply_theme_assignment`'s inner loop over `self.slots`. -/
def pinStep (ov : OvMap) (ta : List (Slot × Word)) (slot : Slot) (w : Word)
    (d : Domains) (other : Slot) : Domains :=
  if hasKey ta other then d
  else
    match lookupOv ov slot other with
    | none => d
    | some (i1, i2) =>
        updateD d other ((d other).filter fun x => charAt x i2 == charAt w i1)

theorem applyOnePin_eq (slots : List Slot) (ov : OvMap) (ta : List (Slot × Word))
    (slot : Slot) (w : Word) (ds : Domains) :
    applyOnePin slots ov ta slot w ds =
      slots.foldl (pinStep ov ta slot w) (updateD ds slot [w]) := rfl

theorem pinStep_pinned {ov : OvMap} {ta : List (Slot × Word)} {slot : Slot} {w : Word}
    (d : Domains) (o : Slot) (hko : hasKey ta o = true) :
    pinStep ov ta slot w d o = d := by
  unfold pinStep
  rw [if_pos hko]

theorem pinStep_keep {ov : OvMap} {ta : List (Slot × Word)} {slot : Slot} {w : Word}
    (d : Domains) (o : Slot) (t : Slot) (hto : t ≠ o) :
    pinStep ov ta slot w d o t = d t := by
  unfold pinStep
  by_cases hko : hasKey ta o = true
  · rw [if_pos hko]
  · rw [if_neg hko]
    cases hl : lookupOv ov slot o with
    | none => rfl
    | some v =>
        obtain ⟨i1, i2⟩ := v
        simp only [updateD]
        rw [if_neg hto]

theorem pinStep_overlap {ov : OvMap} {ta : List (Slot × Word)} {slot : Slot} {w : Word}
    (d : Domains) (o : Slot) {i j : Nat} (hko : hasKey ta o = false)
    (hl : lookupOv ov slot o = some (i, j)) :
    pinStep ov ta slot w d o o = (d o).filter fun x => charAt x j == charAt w i := by
  unfold pinStep
  rw [hko, if_neg Bool.false_ne_true, hl]
  simp only [updateD]
  rw [if_pos trivial]

theorem filter_idem {p : Word → Bool} (l : List Word) :
    (l.filter p).filter p = l.filter p := by
  rw [List.filter_filter]
  exact List.filter_congr fun a _ => Bool.and_self (p a)

theorem foldl_pinStep_keep {ov : OvMap} {ta : List (Slot × Word)} {slot : Slot} {w : Word}
    (hta : hasKey ta slot = true) :
    ∀ (l : List Slot) (d : Domains), d slot = [w] →
      (l.foldl (pinStep ov ta slot w) d) slot = [w]
  | [], _, h => h
  | o :: l, d, h => by
      rw [List.foldl_cons]
      refine foldl_pinStep_keep hta l _ ?_
      by_cases hko : hasKey ta o = true
      · rw [pinStep_pinned d o hko]
        exact h
      · have hos : slot ≠ o := by
          intro he
          rw [← he] at hko
          exact hko hta
        rw [pinStep_keep d o slot hos]
        exact h

theorem foldl_pinStep_at {ov : OvMap} {ta : List (Slot × Word)} {slot : Slot} {w : Word}
    {C : Slot} {i j : Nat} (hC : hasKey ta C = false)
    (hl : lookupOv ov slot C = some (i, j)) :
    ∀ (l : List Slot) (d : Domains),
      (l.foldl (pinStep ov ta slot w) d) C =
        if C ∈ l then (d C).filter (fun x => charAt x j == charAt w i) else d C
  | [], d => by simp
  | o :: l, d => by
      rw [List.foldl_cons, foldl_pinStep_at hC hl l (pinStep ov ta slot w d o)]
      by_cases hoC : o = C
      · rw [hoC, pinStep_overlap d C hC hl]
        by_cases hmem : C ∈ l
        · rw [if_pos hmem, if_pos (List.mem_cons_self C l), filter_idem]
        · rw [if_neg hmem, if_pos (List.mem_cons_self C l)]
      · rw [pinStep_keep d o C fun h => hoC h.symm]
        by_cases hmem : C ∈ l
        · rw [if_pos hmem, if_pos (List.mem_cons_of_mem o hmem)]
        · have hnc : ¬ C ∈ o :: l := by
            rw [List.mem_cons]
            rintro (h | h)
            · exact hoC h.symm
            · exact hmem h
          rw [if_neg hmem, if_neg hnc]

/-- C7: constructing the solver with the pinned theme assignment `{A: w}`
collapses `domains[A]` to the single word `w` before AC-3 runs; every
non-pinned slot `C` overlapping `A` at indices `(i, j)` has its domain
filtered, from the node-consistent word list for its length, to exactly the
words whose letter at `j` equals `w[i]`; and when `solve()` then returns a
solution, that solution maps `A` to `w` unchanged. -/
theorem c7_theme_pinning (slots : List Slot) (words : List Word) (ov : OvMap)
    (theme : Option (Word → ℚ)) (inf : ℚ) (A : Slot) (w : Word) (fuel : Nat)
    (hnd : slots.Nodup) (hsym : SymOv ov) (hirr : IrreflOv ov)
    (hA : A ∈ slots) :
    (mkSolver slots words ov theme [(A, w)] inf).domains A = [w] ∧
    (∀ C i j, C ≠ A → C ∈ slots → lookupOv ov A C = some (i, j) →
      (mkSolver slots words ov theme [(A, w)] inf).domains C =
        (wordsByLength words C.length).filter fun x => charAt x j == charAt w i) ∧
    (∀ r slv2 log,
      solve (mkSolver slots words ov theme [(A, w)] inf) fuel = some (some r, slv2, log) →
      hasKey r A = true ∧ aGet r A = w) := by
  have hta : hasKey [(A, w)] A = true := by
    unfold hasKey
    rw [List.any_cons, List.any_nil, Bool.or_false]
    exact decide_eq_true rfl
  have hdom : (mkSolver slots words ov theme [(A, w)] inf).domains =
      slots.foldl (pinStep ov [(A, w)] A w)
        (updateD (initializeDomains slots (wordsByLength words)) A [w]) := rfl
  have h1 : (mkSolver slots words ov theme [(A, w)] inf).domains A = [w] := by
    rw [hdom]
    refine foldl_pinStep_keep hta slots _ ?_
    simp [updateD]
  refine ⟨h1, ?_, ?_⟩
  · intro C i j hCA hCs hl
    have hkC : hasKey [(A, w)] C = false := by
      unfold hasKey
      rw [List.any_cons, List.any_nil, Bool.or_false]
      exact decide_eq_false fun h => hCA h.symm
    rw [hdom, foldl_pinStep_at hkC hl slots _, if_pos hCs]
    simp only [updateD]
    rw [if_neg hCA]
    unfold initializeDomains
    rw [if_pos hCs]
  · intro r slv2 log hr
    rcases solve_inv hr with ⟨-, hres, -⟩ | ⟨-, a2, hbt⟩
    · cases hres
    · have hst := ac3_state (mkSolver slots words ov theme [(A, w)] inf)
      have hsound := backtrack_sound ov slots
        (ac3 (mkSolver slots words ov theme [(A, w)] inf)).2.domains hsym hirr fuel
        { (ac3 (mkSolver slots words ov theme [(A, w)] inf)).2 with backtrackCount := 0 } []
        hst.2.1 hst.1 rfl
        ⟨List.nodup_nil, fun p hp => absurd hp (List.not_mem_nil p)⟩
        (fun p hp => absurd hp (List.not_mem_nil p))
        (fun X Y i j _ hX _ => by rw [hasKey] at hX; cases hX)
        (some r) a2 slv2 hbt r rfl
      obtain ⟨hwf, hok, hac, hlen⟩ := hsound
      have hKA := keys_cover hnd hwf.1 hwf.2 hlen A hA
      refine ⟨hKA, ?_⟩
      have hmem := hok (A, aGet r A) (aGet_mem hKA)
      have hsub := hst.2.2 A (aGet r A) hmem
      rw [h1] at hsub
      rw [List.mem_singleton] at hsub
      exact hsub

/-! ### Slot extraction: run characterizations (claim C8) -/

theorem runAcross_free (g : Grid) (r : Nat) :
    ∀ c, ∀ k < (runAcross g r c).length,
      c + k < g.width ∧ isBlack g r (c + k) = false := by
  have H : ∀ n c, g.width - c ≤ n → ∀ k < (runAcross g r c).length,
      c + k < g.width ∧ isBlack g r (c + k) = false := by
    intro n
    induction n with
    | zero =>
        intro c hc k hk
        rw [runAcross_eq, if_neg (by omega : ¬ c < g.width)] at hk
        simp at hk
    | succ n ih =>
        intro c hc k hk
        rw [runAcross_eq] at hk
        by_cases hw : c < g.width
        · rw [if_pos hw] at hk
          by_cases hb : isBlack g r c
          · rw [if_pos hb] at hk
            simp at hk
          · rw [if_neg hb] at hk
            simp only [List.length_cons] at hk
            cases k with
            | zero =>
                refine ⟨by omega, ?_⟩
                rw [Nat.add_zero]
                exact Bool.eq_false_iff.mpr hb
            | succ k =>
                have h2 := ih (c + 1) (by omega) k (by omega)
                refine ⟨by omega, ?_⟩
                have heq : c + (k + 1) = (c + 1) + k := by omega
                rw [heq]
                exact h2.2
        · rw [if_neg hw] at hk
          simp at hk
  intro c
  exact H (g.width - c) c le_rfl

theorem runAcross_end (g : Grid) (r : Nat) :
    ∀ c, ¬ (c + (runAcross g r c).length < g.width ∧
      isBlack g r (c + (runAcross g r c).length) = false) := by
  have H : ∀ n c, g.width - c ≤ n →
      ¬ (c + (runAcross g r c).length < g.width ∧
        isBlack g r (c + (runAcross g r c).length) = false) := by
    intro n
    induction n with
    | zero =>
        intro c hc
        rw [runAcross_eq, if_neg (by omega : ¬ c < g.width)]
        rintro ⟨h1, -⟩
        simp only [List.length_nil] at h1
        omega
    | succ n ih =>
        intro c hc
        rw [runAcross_eq]
        by_cases hw : c < g.width
        · rw [if_pos hw]
          by_cases hb : isBlack g r c
          · rw [if_pos hb]
            rintro ⟨-, h2⟩
            simp only [List.length_nil, Nat.add_zero] at h2
            rw [h2] at hb
            cases hb
          · rw [if_neg hb]
            simp only [List.length_cons]
            have heq : c + ((runAcross g r (c + 1)).length + 1) =
                (c + 1) + (runAcross g r (c + 1)).length := by omega
            rw [heq]
            exact ih (c + 1) (by omega)
        · rw [if_neg hw]
          rintro ⟨h1, -⟩
          simp only [List.length_nil] at h1
          omega
  intro c
  exact H (g.width - c) c le_rfl

theorem runAcross_run (g : Grid) (r : Nat) :
    ∀ len c, (∀ k < len, c + k < g.width ∧ isBlack g r (c + k) = false) →
      ¬ (c + len < g.width ∧ isBlack g r (c + len) = false) →
      runAcross g r c = (List.range len).map fun k => (r, c + k) := by
  intro len
  induction len with
  | zero =>
      intro c hfree hend
      rw [List.range_zero, List.map_nil, runAcross_eq]
      by_cases hw : c < g.width
      · rw [if_pos hw]
        have hb : isBlack g r c = true := by
          by_contra hb
          refine hend ⟨by omega, ?_⟩
          rw [Nat.add_zero]
          exact Bool.eq_false_iff.mpr hb
        rw [if_pos hb]
      · rw [if_neg hw]
  | succ len ih =>
      intro c hfree hend
      have h0 := hfree 0 (by omega)
      rw [Nat.add_zero] at h0
      have hb : ¬ isBlack g r c = true := by
        rw [h0.2]
        exact Bool.false_ne_true
      rw [runAcross_eq, if_pos h0.1, if_neg hb]
      have hfree2 : ∀ k < len, (c + 1) + k < g.width ∧
          isBlack g r ((c + 1) + k) = false := by
        intro k hk
        have h2 := hfree (k + 1) (by omega)
        have heq : c + (k + 1) = (c + 1) + k := by omega
        rw [heq] at h2
        exact h2
      have hend2 : ¬ ((c + 1) + len < g.width ∧
          isBlack g r ((c + 1) + len) = false) := by
        have heq : (c + 1) + len = c + (len + 1) := by omega
        rw [heq]
        exact hend
      rw [ih (c + 1) hfree2 hend2, List.range_succ_eq_map, List.map_cons, List.map_map]
      refine congrArg₂ List.cons (by rw [Nat.add_zero]) ?_
      refine List.map_congr_left ?_
      intro k _
      show (r, (c + 1) + k) = (r, c + (k + 1))
      have heq : c + (k + 1) = (c + 1) + k := by omega
      rw [heq]

theorem runDown_free (g : Grid) (c : Nat) :
    ∀ r, ∀ k < (runDown g c r).length,
      r + k < g.height ∧ isBlack g (r + k) c = false := by
  have H : ∀ n r, g.height - r ≤ n → ∀ k < (runDown g c r).length,
      r + k < g.height ∧ isBlack g (r + k) c = false := by
    intro n
    induction n with
    | zero =>
        intro r hr k hk
        rw [runDown_eq, if_neg (by omega : ¬ r < g.height)] at hk
        simp at hk
    | succ n ih =>
        intro r hr k hk
        rw [runDown_eq] at hk
        by_cases hw : r < g.height
        · rw [if_pos hw] at hk
          by_cases hb : isBlack g r c
          · rw [if_pos hb] at hk
            simp at hk
          · rw [if_neg hb] at hk
            simp only [List.length_cons] at hk
            cases k with
            | zero =>
                refine ⟨by omega, ?_⟩
                rw [Nat.add_zero]
                exact Bool.eq_false_iff.mpr hb
            | succ k =>
                have h2 := ih (r + 1) (by omega) k (by omega)
                refine ⟨by omega, ?_⟩
                have heq : r + (k + 1) = (r + 1) + k := by omega
                rw [heq]
                exact h2.2
        · rw [if_neg hw] at hk
          simp at hk
  intro r
  exact H (g.height - r) r le_rfl

theorem runDown_end (g : Grid) (c : Nat) :
    ∀ r, ¬ (r + (runDown g c r).length < g.height ∧
      isBlack g (r + (runDown g c r).length) c = false) := by
  have H : ∀ n r, g.height - r ≤ n →
      ¬ (r + (runDown g c r).length < g.height ∧
        isBlack g (r + (runDown g c r).length) c = false) := by
    intro n
    induction n with
    | zero =>
        intro r hr
        rw [runDown_eq, if_neg (by omega : ¬ r < g.height)]
        rintro ⟨h1, -⟩
        simp only [List.length_nil] at h1
        omega
    | succ n ih =>
        intro r hr
        rw [runDown_eq]
        by_cases hw : r < g.height
        · rw [if_pos hw]
          by_cases hb : isBlack g r c
          · rw [if_pos hb]
            rintro ⟨-, h2⟩
            simp only [List.length_nil, Nat.add_zero] at h2
            rw [h2] at hb
            cases hb
          · rw [if_neg hb]
            simp only [List.length_cons]
            have heq : r + ((runDown g c (r + 1)).length + 1) =
                (r + 1) + (runDown g c (r + 1)).length := by omega
            rw [heq]
            exact ih (r + 1) (by omega)
        · rw [if_neg hw]
          rintro ⟨h1, -⟩
          simp only [List.length_nil] at h1
          omega
  intro r
  exact H (g.height - r) r le_rfl

theorem runDown_run (g : Grid) (c : Nat) :
    ∀ len r, (∀ k < len, r + k < g.height ∧ isBlack g (r + k) c = false) →
      ¬ (r + len < g.height ∧ isBlack g (r + len) c = false) →
      runDown g c r = (List.range len).map fun k => (r + k, c) := by
  intro len
  induction len with
  | zero =>
      intro r hfree hend
      rw [List.range_zero, List.map_nil, runDown_eq]
      by_cases hw : r < g.height
      · rw [if_pos hw]
        have hb : isBlack g r c = true := by
          by_contra hb
          refine hend ⟨by omega, ?_⟩
          rw [Nat.add_zero]
          exact Bool.eq_false_iff.mpr hb
        rw [if_pos hb]
      · rw [if_neg hw]
  | succ len ih =>
      intro r hfree hend
      have h0 := hfree 0 (by omega)
      rw [Nat.add_zero] at h0
      have hb : ¬ isBlack g r c = true := by
        rw [h0.2]
        exact Bool.false_ne_true
      rw [runDown_eq, if_pos h0.1, if_neg hb]
      have hfree2 : ∀ k < len, (r + 1) + k < g.height ∧
          isBlack g ((r + 1) + k) c = false := by
        intro k hk
        have h2 := hfree (k + 1) (by omega)
        have heq : r + (k + 1) = (r + 1) + k := by omega
        rw [heq] at h2
        exact h2
      have hend2 : ¬ ((r + 1) + len < g.height ∧
          isBlack g ((r + 1) + len) c = false) := by
        have heq : (r + 1) + len = r + (len + 1) := by omega
        rw [heq]
        exact hend
      rw [ih (r + 1) hfree2 hend2, List.range_succ_eq_map, List.map_cons, List.map_map]
      refine congrArg₂ List.cons (by rw [Nat.add_zero]) ?_
      refine List.map_congr_left ?_
      intro k _
      show ((r + 1) + k, c) = (r + (k + 1), c)
      have heq : r + (k + 1) = (r + 1) + k := by omega
      rw [heq]

theorem acrossFromGo_mem (g : Grid) (r : Nat) :
    ∀ (fuel c : Nat) (s : Slot), s ∈ acrossFromGo g r fuel c →
      s.row = r ∧ s.direction = .across ∧ c ≤ s.col ∧ 3 ≤ s.length ∧
      s.length = (runAcross g r s.col).length ∧ s.cells = runAcross g r s.col := by
  intro fuel
  induction fuel with
  | zero =>
      intro c s hs
      simp [acrossFromGo] at hs
  | succ fuel ih =>
      intro c s hs
      simp only [acrossFromGo] at hs
      by_cases hw : c < g.width
      · rw [if_pos hw] at hs
        by_cases hb : isBlack g r c
        · rw [if_pos hb] at hs
          obtain ⟨h1, h2, h3, h4⟩ := ih (c + 1) s hs
          exact ⟨h1, h2, by omega, h4⟩
        · rw [if_neg hb] at hs
          rw [List.mem_append] at hs
          cases hs with
          | inl h1 =>
              by_cases h3 : 3 ≤ (runAcross g r c).length
              · rw [if_pos h3, List.mem_singleton] at h1
                subst h1
                exact ⟨rfl, rfl, le_refl c, h3, rfl, rfl⟩
              · rw [if_neg h3] at h1
                simp at h1
          | inr h2 =>
              obtain ⟨ha, hb2, hc2, hd⟩ := ih (c + (runAcross g r c).length) s h2
              exact ⟨ha, hb2, by omega, hd⟩
      · rw [if_neg hw] at hs
        simp at hs

theorem acrossFromGo_pairwise (g : Grid) (r : Nat) :
    ∀ (fuel c : Nat), (acrossFromGo g r fuel c).Pairwise fun s t => s.col < t.col := by
  intro fuel
  induction fuel with
  | zero =>
      intro c
      rw [show acrossFromGo g r 0 c = [] from rfl]
      exact List.Pairwise.nil
  | succ fuel ih =>
      intro c
      simp only [acrossFromGo]
      by_cases hw : c < g.width
      · rw [if_pos hw]
        by_cases hb : isBlack g r c
        · rw [if_pos hb]
          exact ih (c + 1)
        · rw [if_neg hb]
          have hpos := runAcross_length_pos g r c hw (Bool.eq_false_iff.mpr hb)
          rw [List.pairwise_append]
          refine ⟨?_, ih _, ?_⟩
          · by_cases h3 : 3 ≤ (runAcross g r c).length
            · rw [if_pos h3]
              simp
            · rw [if_neg h3]
              exact List.Pairwise.nil
          · intro a ha b hbm
            have hbcol :=
              (acrossFromGo_mem g r fuel (c + (runAcross g r c).length) b hbm).2.2.1
            by_cases h3 : 3 ≤ (runAcross g r c).length
            · rw [if_pos h3, List.mem_singleton] at ha
              subst ha
              show c < b.col
              omega
            · rw [if_neg h3] at ha
              simp at ha
      · rw [if_neg hw]
        exact List.Pairwise.nil

theorem downFromGo_mem (g : Grid) (c : Nat) :
    ∀ (fuel r : Nat) (s : Slot), s ∈ downFromGo g c fuel r →
      s.col = c ∧ s.direction = .down ∧ r ≤ s.row ∧ 3 ≤ s.length ∧
      s.length = (runDown g c s.row).length ∧ s.cells = runDown g c s.row := by
  intro fuel
  induction fuel with
  | zero =>
      intro r s hs
      simp [downFromGo] at hs
  | succ fuel ih =>
      intro r s hs
      simp only [downFromGo] at hs
      by_cases hw : r < g.height
      · rw [if_pos hw] at hs
        by_cases hb : isBlack g r c
        · rw [if_pos hb] at hs
          obtain ⟨h1, h2, h3, h4⟩ := ih (r + 1) s hs
          exact ⟨h1, h2, by omega, h4⟩
        · rw [if_neg hb] at hs
          rw [List.mem_append] at hs
          cases hs with
          | inl h1 =>
              by_cases h3 : 3 ≤ (runDown g c r).length
              · rw [if_pos h3, List.mem_singleton] at h1
                subst h1
                exact ⟨rfl, rfl, le_refl r, h3, rfl, rfl⟩
              · rw [if_neg h3] at h1
                simp at h1
          | inr h2 =>
              obtain ⟨ha, hb2, hc2, hd⟩ := ih (r + (runDown g c r).length) s h2
              exact ⟨ha, hb2, by omega, hd⟩
      · rw [if_neg hw] at hs
        simp at hs

theorem downFromGo_pairwise (g : Grid) (c : Nat) :
    ∀ (fuel r : Nat), (downFromGo g c fuel r).Pairwise fun s t => s.row < t.row := by
  intro fuel
  induction fuel with
  | zero =>
      intro r
      rw [show downFromGo g c 0 r = [] from rfl]
      exact List.Pairwise.nil
  | succ fuel ih =>
      intro r
      simp only [downFromGo]
      by_cases hw : r < g.height
      · rw [if_pos hw]
        by_cases hb : isBlack g r c
        · rw [if_pos hb]
          exact ih (r + 1)
        · rw [if_neg hb]
          have hpos := runDown_length_pos g c r hw (Bool.eq_false_iff.mpr hb)
          rw [List.pairwise_append]
          refine ⟨?_, ih _, ?_⟩
          · by_cases h3 : 3 ≤ (runDown g c r).length
            · rw [if_pos h3]
              simp
            · rw [if_neg h3]
              exact List.Pairwise.nil
          · intro a ha b hbm
            have hbrow :=
              (downFromGo_mem g c fuel (r + (runDown g c r).length) b hbm).2.2.1
            by_cases h3 : 3 ≤ (runDown g c r).length
            · rw [if_pos h3, List.mem_singleton] at ha
              subst ha
              show r < b.row
              omega
            · rw [if_neg h3] at ha
              simp at ha
      · rw [if_neg hw]
        exact List.Pairwise.nil

/-- A maximal contiguous horizontal run of non-blocked in-grid cells: row
`r`, columns `c0 … c0+len-1`, delimited on the right by a black square or the
grid edge and on the left by a black square or column 0. -/
def MaximalRunAcross (g : Grid) (r c0 len : Nat) : Prop :=
  r < g.height ∧
  (∀ k < len, c0 + k < g.width ∧ isBlack g r (c0 + k) = false) ∧
  ¬ (c0 + len < g.width ∧ isBlack g r (c0 + len) = false) ∧
  (c0 = 0 ∨ isBlack g r (c0 - 1) = true)

/-- A maximal contiguous vertical run of non-blocked in-grid cells. -/
def MaximalRunDown (g : Grid) (c r0 len : Nat) : Prop :=
  c < g.width ∧
  (∀ k < len, r0 + k < g.height ∧ isBlack g (r0 + k) c = false) ∧
  ¬ (r0 + len < g.height ∧ isBlack g (r0 + len) c = false) ∧
  (r0 = 0 ∨ isBlack g (r0 - 1) c = true)

theorem acrossFromGo_complete (g : Grid) (r c0 len : Nat) (h3 : 3 ≤ len)
    (hrun : MaximalRunAcross g r c0 len) :
    ∀ fuel c, g.width - c ≤ fuel → c ≤ c0 →
      (⟨r, c0, .across, len, (List.range len).map fun k => (r, c0 + k)⟩ : Slot) ∈
        acrossFromGo g r fuel c := by
  obtain ⟨hh, hfree, hend, hleft⟩ := hrun
  have hc0w : c0 < g.width := by
    have := hfree 0 (by omega)
    omega
  have hrun_eq := runAcross_run g r len c0 hfree hend
  have hlen_eq : (runAcross g r c0).length = len := by
    rw [hrun_eq, List.length_map, List.length_range]
  intro fuel
  induction fuel with
  | zero =>
      intro c h1 h2
      exact absurd hc0w (by omega)
  | succ fuel ih =>
      intro c h1 h2
      have hcw : c < g.width := by omega
      simp only [acrossFromGo]
      rw [if_pos hcw]
      by_cases hb : isBlack g r c
      · rw [if_pos hb]
        have hne : c ≠ c0 := by
          intro he
          rw [he] at hb
          have hf0 := hfree 0 (by omega)
          rw [Nat.add_zero] at hf0
          rw [hf0.2] at hb
          cases hb
        exact ih (c + 1) (by omega) (by omega)
      · rw [if_neg hb]
        by_cases hc : c = c0
        · subst hc
          have hg : 3 ≤ (runAcross g r c).length := by
            rw [hlen_eq]
            exact h3
          rw [if_pos hg]
          refine List.mem_append_left _ ?_
          rw [List.mem_singleton, hrun_eq, List.length_map, List.length_range]
        · have hL := runAcross_length_pos g r c hcw (Bool.eq_false_iff.mpr hb)
          have hCL : c + (runAcross g r c).length ≤ c0 := by
            by_contra hgt
            rw [not_le] at hgt
            have hc0pos : c0 ≠ 0 := by omega
            have hblack : isBlack g r (c0 - 1) = true := hleft.resolve_left hc0pos
            have hkfree := runAcross_free g r c (c0 - 1 - c) (by omega)
            have heq : c + (c0 - 1 - c) = c0 - 1 := by omega
            rw [heq] at hkfree
            rw [hkfree.2] at hblack
            cases hblack
          exact List.mem_append_right _ (ih (c + (runAcross g r c).length) (by omega) hCL)

theorem downFromGo_complete (g : Grid) (c r0 len : Nat) (h3 : 3 ≤ len)
    (hrun : MaximalRunDown g c r0 len) :
    ∀ fuel r, g.height - r ≤ fuel → r ≤ r0 →
      (⟨r0, c, .down, len, (List.range len).map fun k => (r0 + k, c)⟩ : Slot) ∈
        downFromGo g c fuel r := by
  obtain ⟨hh, hfree, hend, hleft⟩ := hrun
  have hr0w : r0 < g.height := by
    have := hfree 0 (by omega)
    omega
  have hrun_eq := runDown_run g c len r0 hfree hend
  have hlen_eq : (runDown g c r0).length = len := by
    rw [hrun_eq, List.length_map, List.length_range]
  intro fuel
  induction fuel with
  | zero =>
      intro r h1 h2
      exact absurd hr0w (by omega)
  | succ fuel ih =>
      intro r h1 h2
      have hrw : r < g.height := by omega
      simp only [downFromGo]
      rw [if_pos hrw]
      by_cases hb : isBlack g r c
      · rw [if_pos hb]
        have hne : r ≠ r0 := by
          intro he
          rw [he] at hb
          have hf0 := hfree 0 (by omega)
          rw [Nat.add_zero] at hf0
          rw [hf0.2] at hb
          cases hb
        exact ih (r + 1) (by omega) (by omega)
      · rw [if_neg hb]
        by_cases hc : r = r0
        · subst hc
          have hg : 3 ≤ (runDown g c r).length := by
            rw [hlen_eq]
            exact h3
          rw [if_pos hg]
          refine List.mem_append_left _ ?_
          rw [List.mem_singleton, hrun_eq, List.length_map, List.length_range]
        · have hL := runDown_length_pos g c r hrw (Bool.eq_false_iff.mpr hb)
          have hRL : r + (runDown g c r).length ≤ r0 := by
            by_contra hgt
            rw [not_le] at hgt
            have hr0pos : r0 ≠ 0 := by omega
            have hblack : isBlack g (r0 - 1) c = true := hleft.resolve_left hr0pos
            have hkfree := runDown_free g c r (r0 - 1 - r) (by omega)
            have heq : r + (r0 - 1 - r) = r0 - 1 := by omega
            rw [heq] at hkfree
            rw [hkfree.2] at hblack
            cases hblack
          exact List.mem_append_right _ (ih (r + (runDown g c r).length) (by omega) hRL)

theorem flatMap_congr_fn {α β : Type} {f f2 : α → List β} :
    ∀ {l : List α}, (∀ a ∈ l, f a = f2 a) → l.flatMap f = l.flatMap f2
  | [], _ => rfl
  | a :: l, h => by
      rw [List.flatMap_cons, List.flatMap_cons, h a (List.mem_cons_self a l),
        flatMap_congr_fn fun b hb => h b (List.mem_cons_of_mem a hb)]

theorem flatMap_singleton_fn {α β : Type} (f : α → β) :
    ∀ (l : List α), (l.flatMap fun x => [f x]) = l.map f
  | [] => rfl
  | a :: l => by
      rw [List.flatMap_cons, List.map_cons, flatMap_singleton_fn f l]
      rfl

theorem pairwise_flatMap {α β : Type} {P : β → β → Prop} {f : α → List β} :
    ∀ {l : List α}, (∀ a ∈ l, (f a).Pairwise P) →
      l.Pairwise (fun a b => ∀ x ∈ f a, ∀ y ∈ f b, P x y) →
      (l.flatMap f).Pairwise P
  | [], _, _ => List.Pairwise.nil
  | a :: l, h1, h2 => by
      rw [List.flatMap_cons, List.pairwise_append]
      refine ⟨h1 a (List.mem_cons_self a l), ?_, ?_⟩
      · exact pairwise_flatMap (fun b hb => h1 b (List.mem_cons_of_mem a hb))
          (List.Pairwise.sublist (List.sublist_cons_self a l) h2)
      · intro x hx y hy
        rw [List.mem_flatMap] at hy
        obtain ⟨b, hb, hyb⟩ := hy
        exact (List.pairwise_cons.mp h2).1 b hb x hx y hyb

/-- Row-major output order on across slots. -/
def RowMajorLt (s t : Slot) : Prop := s.row < t.row ∨ (s.row = t.row ∧ s.col < t.col)

/-- Column-major output order on down slots. -/
def ColMajorLt (s t : Slot) : Prop := s.col < t.col ∨ (s.col = t.col ∧ s.row < t.row)

theorem acrossFrom_noblack (g : Grid) (hnb : ∀ r c, isBlack g r c = false)
    (hw3 : 3 ≤ g.width) (r : Nat) :
    acrossFrom g r 0 =
      [⟨r, 0, .across, g.width, (List.range g.width).map fun k => (r, k)⟩] := by
  have hfree : ∀ k < g.width, 0 + k < g.width ∧ isBlack g r (0 + k) = false :=
    fun k hk => ⟨by omega, hnb r (0 + k)⟩
  have hend : ¬ (0 + g.width < g.width ∧ isBlack g r (0 + g.width) = false) := by
    rintro ⟨h1, -⟩
    omega
  have hrun := runAcross_run g r g.width 0 hfree hend
  have hlen : (runAcross g r 0).length = g.width := by
    rw [hrun, List.length_map, List.length_range]
  have hb0 : ¬ isBlack g r 0 = true := by
    rw [hnb r 0]
    exact Bool.false_ne_true
  rw [acrossFrom_eq, if_pos (by omega : 0 < g.width), if_neg hb0,
    if_pos (by rw [hlen]; omega : 3 ≤ (runAcross g r 0).length)]
  have htail : acrossFrom g r (0 + (runAcross g r 0).length) = [] := by
    rw [hlen, acrossFrom_eq, if_neg (by omega : ¬ 0 + g.width < g.width)]
  rw [htail, List.append_nil, hrun, List.length_map, List.length_range]
  have hcells : ((List.range g.width).map fun k => ((r, 0 + k) : Coord)) =
      (List.range g.width).map fun k => (r, k) :=
    List.map_congr_left fun k _ => by rw [Nat.zero_add]
  rw [hcells]

theorem downFrom_noblack (g : Grid) (hnb : ∀ r c, isBlack g r c = false)
    (hh3 : 3 ≤ g.height) (c : Nat) :
    downFrom g c 0 =
      [⟨0, c, .down, g.height, (List.range g.height).map fun k => (k, c)⟩] := by
  have hfree : ∀ k < g.height, 0 + k < g.height ∧ isBlack g (0 + k) c = false :=
    fun k hk => ⟨by omega, hnb (0 + k) c⟩
  have hend : ¬ (0 + g.height < g.height ∧ isBlack g (0 + g.height) c = false) := by
    rintro ⟨h1, -⟩
    omega
  have hrun := runDown_run g c g.height 0 hfree hend
  have hlen : (runDown g c 0).length = g.height := by
    rw [hrun, List.length_map, List.length_range]
  have hb0 : ¬ isBlack g 0 c = true := by
    rw [hnb 0 c]
    exact Bool.false_ne_true
  rw [downFrom_eq, if_pos (by omega : 0 < g.height), if_neg hb0,
    if_pos (by rw [hlen]; omega : 3 ≤ (runDown g c 0).length)]
  have htail : downFrom g c (0 + (runDown g c 0).length) = [] := by
    rw [hlen, downFrom_eq, if_neg (by omega : ¬ 0 + g.height < g.height)]
  rw [htail, List.append_nil, hrun, List.length_map, List.length_range]
  have hcells : ((List.range g.height).map fun k => ((0 + k, c) : Coord)) =
      (List.range g.height).map fun k => (k, c) :=
    List.map_congr_left fun k _ => by rw [Nat.zero_add]
  rw [hcells]

/-- A freshly constructed grid has no black squares anywhere. -/
theorem isBlack_empty (w h r c : Nat) : isBlack (emptyGrid w h) r c = false := by
  unfold isBlack getCell emptyGrid
  by_cases hr : r < h <;> by_cases hc : c < w <;>
    simp [List.get?_eq_getElem?, List.getElem?_replicate, hr, hc]

/-- C8: on a grid of allowed size `N`×`N` with no blocked cells,
`extract_slots` returns exactly the `N` across slots (one per row) followed by
the `N` down slots (one per column), each of length `N`; on any grid, every
returned slot has length at least 3 (so no run of length 1 or 2 is ever
returned), every maximal contiguous horizontal or vertical run of non-blocked
cells of length ≥ 3 appears in the output, and the output is all across slots
in row-major order followed by all down slots in column-major order. -/
theorem c8_extract_slots (g : Grid) (N : Nat) :
    (4 ≤ N → N ≤ 30 → g.width = N → g.height = N →
      (∀ r c, isBlack g r c = false) →
      extract_slots g =
        ((List.range N).map fun r =>
          ⟨r, 0, .across, N, (List.range N).map fun k => (r, k)⟩) ++
        ((List.range N).map fun c =>
          ⟨0, c, .down, N, (List.range N).map fun k => (k, c)⟩)) ∧
    (∀ s ∈ extract_slots g, 3 ≤ s.length) ∧
    (∀ r c0 len, 3 ≤ len → MaximalRunAcross g r c0 len →
      (⟨r, c0, .across, len, (List.range len).map fun k => (r, c0 + k)⟩ : Slot) ∈
        extract_slots g) ∧
    (∀ c r0 len, 3 ≤ len → MaximalRunDown g c r0 len →
      (⟨r0, c, .down, len, (List.range len).map fun k => (r0 + k, c)⟩ : Slot) ∈
        extract_slots g) ∧
    (∃ A D, extract_slots g = A ++ D ∧
      (∀ s ∈ A, s.direction = .across) ∧ (∀ s ∈ D, s.direction = .down) ∧
      A.Pairwise RowMajorLt ∧ D.Pairwise ColMajorLt) := by
  refine ⟨?_, ?_, ?_, ?_, ?_⟩
  · intro h4 h30 hw hh hnb
    have hA : (List.range g.height).flatMap (fun r => acrossFrom g r 0) =
        (List.range g.height).map fun r =>
          ⟨r, 0, .across, g.width, (List.range g.width).map fun k => (r, k)⟩ := by
      rw [flatMap_congr_fn fun r _ => acrossFrom_noblack g hnb (by omega) r,
        flatMap_singleton_fn]
    have hD : (List.range g.width).flatMap (fun c => downFrom g c 0) =
        (List.range g.width).map fun c =>
          ⟨0, c, .down, g.height, (List.range g.height).map fun k => (k, c)⟩ := by
      rw [flatMap_congr_fn fun c _ => downFrom_noblack g hnb (by omega) c,
        flatMap_singleton_fn]
    unfold extract_slots
    rw [hA, hD, hw, hh]
  · intro slot hs
    unfold extract_slots at hs
    rw [List.mem_append] at hs
    cases hs with
    | inl h1 =>
        rw [List.mem_flatMap] at h1
        obtain ⟨r, -, h1⟩ := h1
        exact (acrossFromGo_mem g r (g.width - 0) 0 slot h1).2.2.2.1
    | inr h2 =>
        rw [List.mem_flatMap] at h2
        obtain ⟨c, -, h2⟩ := h2
        exact (downFromGo_mem g c (g.height - 0) 0 slot h2).2.2.2.1
  · intro r c0 len h3 hrun
    unfold extract_slots
    refine List.mem_append_left _ ?_
    rw [List.mem_flatMap]
    exact ⟨r, List.mem_range.mpr hrun.1,
      acrossFromGo_complete g r c0 len h3 hrun (g.width - 0) 0 le_rfl (Nat.zero_le c0)⟩
  · intro c r0 len h3 hrun
    unfold extract_slots
    refine List.mem_append_right _ ?_
    rw [List.mem_flatMap]
    exact ⟨c, List.mem_range.mpr hrun.1,
      downFromGo_complete g c r0 len h3 hrun (g.height - 0) 0 le_rfl (Nat.zero_le r0)⟩
  · refine ⟨_, _, rfl, ?_, ?_, ?_, ?_⟩
    · intro slot hs
      rw [List.mem_flatMap] at hs
      obtain ⟨r, -, hs⟩ := hs
      exact (acrossFromGo_mem g r (g.width - 0) 0 slot hs).2.1
    · intro slot hs
      rw [List.mem_flatMap] at hs
      obtain ⟨c, -, hs⟩ := hs
      exact (downFromGo_mem g c (g.height - 0) 0 slot hs).2.1
    · refine pairwise_flatMap ?_ ?_
      · intro r _
        refine List.Pairwise.imp_of_mem ?_ (acrossFromGo_pairwise g r (g.width - 0) 0)
        intro a b ha hb hcol
        exact Or.inr ⟨((acrossFromGo_mem g r (g.width - 0) 0 a ha).1).trans
          ((acrossFromGo_mem g r (g.width - 0) 0 b hb).1).symm, hcol⟩
      · refine (List.pairwise_lt_range g.height).imp ?_
        intro r1 r2 hlt x hx y hy
        have hx1 := (acrossFromGo_mem g r1 (g.width - 0) 0 x hx).1
        have hy1 := (acrossFromGo_mem g r2 (g.width - 0) 0 y hy).1
        exact Or.inl (by rw [hx1, hy1]; exact hlt)
    · refine pairwise_flatMap ?_ ?_
      · intro c _
        refine List.Pairwise.imp_of_mem ?_ (downFromGo_pairwise g c (g.height - 0) 0)
        intro a b ha hb hrow
        exact Or.inr ⟨((downFromGo_mem g c (g.height - 0) 0 a ha).1).trans
          ((downFromGo_mem g c (g.height - 0) 0 b hb).1).symm, hrow⟩
      · refine (List.pairwise_lt_range g.width).imp ?_
        intro c1 c2 hlt x hx y hy
        have hx1 := (downFromGo_mem g c1 (g.height - 0) 0 x hx).1
        have hy1 := (downFromGo_mem g c2 (g.height - 0) 0 y hy).1
        exact Or.inl (by rw [hx1, hy1]; exact hlt)

/-! ### Concrete configurations -/

/-- A 3-cell across slot in row 0. -/
def slotA : Slot := ⟨0, 0, .across, 3, [(0, 0), (0, 1), (0, 2)]⟩

/-- A 3-cell down slot in column 0, crossing `slotA` at `(0, 0)`. -/
def slotB : Slot := ⟨0, 0, .down, 3, [(0, 0), (1, 0), (2, 0)]⟩

def fxSlots : List Slot := [slotA, slotB]

def fxOv : OvMap := calculate_overlaps fxSlots

def wCAT : Word := ['C', 'A', 'T']
def wCOG : Word := ['C', 'O', 'G']
def wCUP : Word := ['C', 'U', 'P']
def wDOG : Word := ['D', 'O', 'G']

def fxWords : List Word := [wCAT, wCOG, wCUP, wDOG]

def fxSolver : Solver := mkSolver fxSlots fxWords fxOv none [] 1

/-- The solution `solve` finds on the crossing-slots configuration. -/
def fxR : Assignment := [(slotA, wCAT), (slotB, wCAT)]

/-- The solution `solve` finds when `slotA` is pinned to DOG. -/
def fxR7 : Assignment := [(slotA, wDOG), (slotB, wDOG)]

/-- A total candidate solution of the crossing-slots configuration. -/
def fxS : Slot → Word := fun X => if X = slotA then wCAT else wCOG

/-- A theme scorer rating DOG at 100 and everything else at 0. -/
def fxScore : Word → ℚ := fun w => if w = wDOG then 100 else 0

/-- A 4-cell down slot crossing `slotA` at `(0, 0)`. -/
def slotC : Slot := ⟨0, 0, .down, 4, [(0, 0), (1, 0), (2, 0), (3, 0)]⟩

def wDOGS : Word := ['D', 'O', 'G', 'S']

def cfgASlots : List Slot := [slotA, slotC]

/-- A configuration on which AC-3 fails (CAT and DOGS disagree at the
crossing). -/
def cfgA : Solver := mkSolver cfgASlots [wCAT, wDOGS] (calculate_overlaps cfgASlots) none [] 1

/-- A configuration on which AC-3 succeeds but the search exhausts (one slot,
no words). -/
def cfgB : Solver := mkSolver [slotA] [] (calculate_overlaps [slotA]) none [] 1

/-- A pointwise overlap-agreement check over the entries of a concrete map
gives the quantified constraint-satisfaction hypothesis. -/
theorem sat_of_forall_mem {ov : OvMap} {S : Slot → Word}
    (h : ∀ e ∈ ov, charAt (S e.1.1) e.2.1 = charAt (S e.1.2) e.2.2) :
    ∀ a b i j, lookupOv ov a b = some (i, j) → charAt (S a) i = charAt (S b) j := by
  intro a b i j hl
  unfold lookupOv at hl
  cases hf : ov.find? fun e => decide (e.1 = (a, b)) with
  | none =>
      rw [hf] at hl
      cases hl
  | some e =>
      rw [hf] at hl
      have hmem := List.mem_of_find?_eq_some hf
      have hpe := List.find?_some hf
      rw [decide_eq_true_eq] at hpe
      rw [Option.map_some'] at hl
      have he2 := Option.some.inj hl
      have h2 := h e hmem
      rw [hpe, he2] at h2
      exact h2

/-! ### Claims C2, C5, C6 -/

/-- C2: the claimed theme-biased value ordering is dead code.  The class body
of `solver.py` defines `_order_domain_values` twice; the second (pure LCV)
definition shadows the first (theme-weighted) one, so the ordering used
during search ignores theme scores and `theme_influence` entirely.  On this
configuration (DOG scored 100, influence 1) the live ordering leaves DOG
last, while the claimed cost formula — embodied by the shadowed first
definition, `orderDomainValuesThemed` — would rank DOG first. -/
theorem c2_theme_ordering_shadowed :
    orderDomainValues (mkSolver fxSlots fxWords fxOv (some fxScore) [] 1) slotA [] =
      [wCAT, wCOG, wCUP, wDOG] ∧
    orderDomainValuesThemed (mkSolver fxSlots fxWords fxOv (some fxScore) [] 1) slotA [] =
      [wDOG, wCAT, wCOG, wCUP] ∧
    orderDomainValues (mkSolver fxSlots fxWords fxOv (some fxScore) [] 1) slotA [] ≠
      orderDomainValuesThemed (mkSolver fxSlots fxWords fxOv (some fxScore) [] 1) slotA [] := by
  refine ⟨?_, ?_, ?_⟩ <;> with_unfolding_all decide

/-- C5 (corrected): `solve()` returns the bare value `None` on both
no-solution paths — the returned value carries no reason tag and no
statistics.  The AC-3-failure path and the search-exhaustion path are
distinguished only in the printed log, where the exhaustion message carries
the backtrack count. -/
theorem c5_no_solution_reporting (slv slv1 slv3 : Solver) (a2 : Assignment) (fuel : Nat) :
    (ac3 slv = (false, slv1) →
      solve slv fuel = some (none, slv1,
        [s!"Starting solve with {slv.slots.length} slots...", "Running AC-3...",
         "AC-3 failed - puzzle has no solution"])) ∧
    (ac3 slv = (true, slv1) →
      backtrack fuel { slv1 with backtrackCount := 0 } [] = some (none, a2, slv3) →
      solve slv fuel = some (none, slv3,
        [s!"Starting solve with {slv.slots.length} slots...", "Running AC-3...",
         "AC-3 complete. Starting backtracking search...",
         s!"✗ No solution found after {slv3.backtrackCount} backtracks"])) :=
  ⟨fun hac => solve_ac3_fail fuel hac, fun hac hbt => solve_exhausted hac hbt⟩

/-- The original C5 claim fails on the return value: the AC-3-failure run
(`cfgA`) and the search-exhaustion run (`cfgB`) both return the same bare
`None`; nothing in the returned value distinguishes the two phases. -/
theorem c5_counterexample :
    (solve cfgA 5).map Prod.fst = some none ∧
    (solve cfgB 5).map Prod.fst = some none ∧
    (solve cfgA 5).map Prod.fst = (solve cfgB 5).map Prod.fst := by
  refine ⟨?_, ?_, ?_⟩ <;> decide

theorem c5_no_solution_reporting_witness :
    solve cfgA 5 = some (none, (ac3 cfgA).2,
      ["Starting solve with 2 slots...", "Running AC-3...",
       "AC-3 failed - puzzle has no solution"]) ∧
    (solve cfgB 5).map (fun t => (t.1, t.2.2)) = some (none,
      ["Starting solve with 1 slots...", "Running AC-3...",
       "AC-3 complete. Starting backtracking search...",
       "✗ No solution found after 1 backtracks"]) := by
  constructor
  · have hfst : (ac3 cfgA).1 = false := by decide
    have hac : ac3 cfgA = (false, (ac3 cfgA).2) := by rw [← hfst]
    exact (c5_no_solution_reporting cfgA ((ac3 cfgA).2) cfgA [] 5).1 hac
  · have hfst : (ac3 cfgB).1 = true := by decide
    have hac : ac3 cfgB = (true, (ac3 cfgB).2) := by rw [← hfst]
    obtain ⟨a2, slv3, hbt, hcnt⟩ : ∃ a2 slv3,
        backtrack 5 { (ac3 cfgB).2 with backtrackCount := 0 } [] = some (none, a2, slv3) ∧
        slv3.backtrackCount = 1 :=
      ⟨_, _, rfl, rfl⟩
    have h := (c5_no_solution_reporting cfgB ((ac3 cfgB).2) slv3 a2 5).2 hac hbt
    rw [h, hcnt]
    simp only [Option.map_some']
    decide

/-- C6 (corrected): a slot length with zero matching dictionary words does
not abort construction.  `__init__` completes normally — the `Except`-wrapped
constructor always returns `.ok` — and the condition is surfaced only as a
printed warning, the slot's domain being left empty for the search phase. -/
theorem c6_empty_domain_warning (slots : List Slot) (words : List Word) (ov : OvMap)
    (theme : Option (Word → ℚ)) (inf : ℚ) (s : Slot) (hs : s ∈ slots)
    (hw : wordsByLength words s.length = []) :
    mkSolverE slots words ov theme [] inf =
      .ok (mkSolver slots words ov theme [] inf, initWarnings slots (wordsByLength words)) ∧
    warnMsg s ∈ initWarnings slots (wordsByLength words) ∧
    (mkSolver slots words ov theme [] inf).domains s = [] := by
  refine ⟨rfl, ?_, ?_⟩
  · unfold initWarnings
    rw [List.mem_filterMap]
    exact ⟨s, hs, by rw [hw]; rfl⟩
  · show initializeDomains slots (wordsByLength words) s = []
    unfold initializeDomains
    rw [if_pos hs]
    exact hw

/-- The original C6 claim fails: with one slot and an empty dictionary the
constructor still completes normally; no error, only a warning string. -/
theorem c6_counterexample :
    (match mkSolverE [slotA] ([] : List Word) (calculate_overlaps [slotA]) none [] 1 with
      | .ok _ => True
      | .error _ => False) ∧
    (mkSolver [slotA] [] (calculate_overlaps [slotA]) none [] 1).domains slotA = [] ∧
    initWarnings [slotA] (wordsByLength []) = [warnMsg slotA] :=
  ⟨trivial, by decide, by decide⟩

theorem c6_empty_domain_warning_witness :
    mkSolverE [slotA] ([] : List Word) (calculate_overlaps [slotA]) none [] 1 =
      .ok (mkSolver [slotA] [] (calculate_overlaps [slotA]) none [] 1,
        initWarnings [slotA] (wordsByLength [])) ∧
    warnMsg slotA ∈ initWarnings [slotA] (wordsByLength []) ∧
    (mkSolver [slotA] [] (calculate_overlaps [slotA]) none [] 1).domains slotA = [] :=
  c6_empty_domain_warning [slotA] [] (calculate_overlaps [slotA]) none 1 slotA
    (by decide) (by decide)

/-! ### Witnesses -/

theorem c9_overlap_symmetry_witness :
    lookupOv (calculate_overlaps fxSlots) slotB slotA = some (0, 0) ∧
    slotA.cells.get? 0 = slotB.cells.get? 0 ∧ (slotA.cells.get? 0).isSome ∧
    slotA.direction ≠ slotB.direction :=
  c9_overlap_symmetry fxSlots slotA slotB 0 0 (by decide)

theorem c3_ac3_never_removes_solution_witness :
    (ac3 (mkSolver fxSlots fxWords fxOv none [] 1)).1 = true ∧
    fxS slotA ∈ (ac3 (mkSolver fxSlots fxWords fxOv none [] 1)).2.domains slotA ∧
    fxS slotB ∈ (ac3 (mkSolver fxSlots fxWords fxOv none [] 1)).2.domains slotB := by
  have h := c3_ac3_never_removes_solution fxSlots fxWords fxOv fxS
    (keysWF_calculate_overlaps fxSlots) (by decide) (sat_of_forall_mem (by decide))
  exact ⟨h.1, h.2 slotA (by decide), h.2 slotB (by decide)⟩

theorem c4_ac3_soundness_witness :
    ∃ w2 ∈ (ac3 fxSolver).2.domains slotB, charAt wCAT 0 = charAt w2 0 :=
  c4_ac3_soundness fxSolver (keysWF_calculate_overlaps fxSlots)
    (symOv_calculate_overlaps fxSlots) (irreflOv_calculate_overlaps fxSlots)
    (by decide) slotA slotB 0 0 (by decide) wCAT (by decide)

theorem c1_solve_sound_witness :
    hasKey fxR slotA = true ∧ hasKey fxR slotB = true ∧
    charAt (aGet fxR slotA) 0 = charAt (aGet fxR slotB) 0 := by
  obtain ⟨slv2, log, hr⟩ : ∃ slv2 log,
      solve (mkSolver fxSlots fxWords fxOv none [] 1) 5 = some (some fxR, slv2, log) :=
    ⟨_, _, rfl⟩
  obtain ⟨h1, h2, h3⟩ := c1_solve_sound fxSlots fxWords fxOv none [] 1 5 fxR slv2 log
    (by decide) (keysWF_calculate_overlaps fxSlots) (symOv_calculate_overlaps fxSlots)
    (irreflOv_calculate_overlaps fxSlots) (by decide) hr
  exact ⟨h1 slotA (by decide), h1 slotB (by decide), h2 slotA slotB 0 0 (by decide)⟩

theorem c7_theme_pinning_witness :
    (mkSolver fxSlots fxWords fxOv none [(slotA, wDOG)] 1).domains slotA = [wDOG] ∧
    (mkSolver fxSlots fxWords fxOv none [(slotA, wDOG)] 1).domains slotB =
      (wordsByLength fxWords slotB.length).filter (fun x => charAt x 0 == charAt wDOG 0) ∧
    hasKey fxR7 slotA = true ∧ aGet fxR7 slotA = wDOG := by
  obtain ⟨h1, h2, h3⟩ := c7_theme_pinning fxSlots fxWords fxOv none 1 slotA wDOG 5
    (by decide) (symOv_calculate_overlaps fxSlots) (irreflOv_calculate_overlaps fxSlots)
    (by decide)
  obtain ⟨slv2, log, hr⟩ : ∃ slv2 log,
      solve (mkSolver fxSlots fxWords fxOv none [(slotA, wDOG)] 1) 5 =
        some (some fxR7, slv2, log) :=
    ⟨_, _, rfl⟩
  obtain ⟨hk, hv⟩ := h3 fxR7 slv2 log hr
  exact ⟨h1, h2 slotB 0 0 (by decide) (by decide) (by decide), hk, hv⟩

theorem c8_extract_slots_witness :
    extract_slots (emptyGrid 4 4) =
      ((List.range 4).map fun r =>
        ⟨r, 0, .across, 4, (List.range 4).map fun k => (r, k)⟩) ++
      ((List.range 4).map fun c =>
        ⟨0, c, .down, 4, (List.range 4).map fun k => (k, c)⟩) ∧
    3 ≤ (⟨0, 0, .across, 4, (List.range 4).map fun k => ((0 : Nat), k)⟩ : Slot).length ∧
    (⟨0, 0, .across, 4, (List.range 4).map fun k => ((0 : Nat), 0 + k)⟩ : Slot) ∈
      extract_slots (emptyGrid 4 4) ∧
    (⟨0, 0, .down, 4, (List.range 4).map fun k => (0 + k, (0 : Nat))⟩ : Slot) ∈
      extract_slots (emptyGrid 4 4) := by
  obtain ⟨h1, h2, h3, h4, -⟩ := c8_extract_slots (emptyGrid 4 4) 4
  refine ⟨h1 (by decide) (by decide) rfl rfl (fun r c => isBlack_empty 4 4 r c),
    ?_, ?_, ?_⟩
  · exact h2 ⟨0, 0, .across, 4, (List.range 4).map fun k => ((0 : Nat), k)⟩ (by decide)
  · exact h3 0 0 4 (by decide) (by unfold MaximalRunAcross; decide)
  · exact h4 0 0 4 (by decide) (by unfold MaximalRunDown; decide)

end AC3ross
